import Mathlib

/-!
EnBeat_NEW: the minibaker (pack / unpack) and the comma formatter

A shallow embedding of `src/src/actions.mjs` (class `Actions`): `minibakeCode`,
`unminibakeCode` and `commaFormat`, together with the JavaScript primitives
they call (`trim`, `escape`, `unescape`, `String.prototype.replace` with the
two regular expressions that occur in the source).

A JavaScript string is modelled as the list of its UTF-16 code units.
-/

namespace EnBeat

/-- A JavaScript string, as the list of its UTF-16 code units (each below 65536). -/
abbrev Str := List Nat

/-- The code units of a literal whose characters lie in the basic plane (used for the
literals of the source and for examples). -/
def toUnits (s : String) : Str := s.toList.map Char.toNat

/-! ## JavaScript primitives -/

/-- `str.charCodeAt(0)` of `str.substring(k, k + 1)`: the code unit at index `k`.
Past the end the substring is empty and `charCodeAt` is `NaN`, which the
bitwise operators read as `0`. -/
def charCodeAt (str : Str) (k : Nat) : Nat := str.getD k 0

/-- `String.fromCharCode(n)`: one code unit, `ToUint16(n)`. -/
def fromCharCode (n : Nat) : Nat := n % 65536

/-- Line terminators of ECMAScript: LF, CR, U+2028, U+2029. The `.` of a regular
expression (without the `s` flag) matches every code unit but these. -/
def isLineTerminator (c : Nat) : Bool := c == 10 || c == 13 || c == 8232 || c == 8233

/-- White space and line terminators, the code units `String.prototype.trim` strips. -/
def isWhiteSpace (c : Nat) : Bool :=
  c == 9 || c == 10 || c == 11 || c == 12 || c == 13 || c == 32 || c == 160 ||
  c == 5760 || (8192 ≤ c && c ≤ 8202) || c == 8232 || c == 8233 || c == 8239 ||
  c == 8287 || c == 12288 || c == 65279

/-- `str.trim()`. -/
def trim (s : Str) : Str := ((s.dropWhile isWhiteSpace).reverse.dropWhile isWhiteSpace).reverse

/-- The code units `escape` leaves alone: `A-Z a-z 0-9 @ * _ + - . /`. -/
def isUnescaped (c : Nat) : Bool :=
  (65 ≤ c && c ≤ 90) || (97 ≤ c && c ≤ 122) || (48 ≤ c && c ≤ 57) ||
  c == 64 || c == 42 || c == 95 || c == 43 || c == 45 || c == 46 || c == 47

/-- The upper-case hexadecimal digit (as a code unit) of a value below 16. -/
def hexDigit (d : Nat) : Nat := if d < 10 then 48 + d else 55 + d

/-- What `escape` emits for one code unit: itself, `%XX`, or `%uXXXX`. -/
def escapeUnit (c : Nat) : Str :=
  if isUnescaped c then [c]
  else if c < 256 then [37, hexDigit (c / 16), hexDigit (c % 16)]
  else [37, 117, hexDigit (c / 4096 % 16), hexDigit (c / 256 % 16),
        hexDigit (c / 16 % 16), hexDigit (c % 16)]

/-- The global function `escape(string)` (ECMAScript Annex B). -/
def escape (s : Str) : Str := (s.map escapeUnit).flatten

/-- A hexadecimal digit, either case. -/
def isHexDigit (c : Nat) : Bool :=
  (48 ≤ c && c ≤ 57) || (65 ≤ c && c ≤ 70) || (97 ≤ c && c ≤ 102)

/-- The value of a hexadecimal digit. -/
def hexVal (c : Nat) : Nat := if c ≤ 57 then c - 48 else if c ≤ 70 then c - 55 else c - 87

/-- The scan of `unescape`; `skip` counts the code units still to be passed over
after a `%XX` (2) or `%uXXXX` (5) sequence was decoded. -/
def unescapeAux : Nat → Str → Str
  | _, [] => []
  | skip + 1, _ :: rest => unescapeAux skip rest
  | 0, c :: rest =>
    if c = 37 then
      if 5 ≤ rest.length ∧ rest.getD 0 0 = 117 then
        if isHexDigit (rest.getD 1 0) && isHexDigit (rest.getD 2 0) &&
            isHexDigit (rest.getD 3 0) && isHexDigit (rest.getD 4 0) then
          (hexVal (rest.getD 1 0) * 4096 + hexVal (rest.getD 2 0) * 256 +
            hexVal (rest.getD 3 0) * 16 + hexVal (rest.getD 4 0)) :: unescapeAux 5 rest
        else c :: unescapeAux 0 rest
      else if 2 ≤ rest.length then
        if isHexDigit (rest.getD 0 0) && isHexDigit (rest.getD 1 0) then
          (hexVal (rest.getD 0 0) * 16 + hexVal (rest.getD 1 0)) :: unescapeAux 2 rest
        else c :: unescapeAux 0 rest
      else c :: unescapeAux 0 rest
    else c :: unescapeAux 0 rest

/-- The global function `unescape(string)` (ECMAScript Annex B). -/
def unescape (s : Str) : Str := unescapeAux 0 s

/-- `s.replace(/u(..)/g, '$1%')`: every `u` followed by two code units that are
not line terminators is replaced by those two code units and a `%`; matches are
found left to right and do not overlap. -/
def replaceU : Str → Str
  | c :: a :: b :: rest2 =>
    if c = 117 ∧ isLineTerminator a = false ∧ isLineTerminator b = false then
      a :: b :: 37 :: replaceU rest2
    else c :: replaceU (a :: b :: rest2)
  | c :: rest => c :: replaceU rest
  | [] => []

/-- `str.replace(/, /g, ",")`: every comma followed by a space loses the space. -/
def collapseCommaSpace : Str → Str
  | c :: d :: rest2 =>
    if c = 44 ∧ d = 32 then 44 :: collapseCommaSpace rest2
    else c :: collapseCommaSpace (d :: rest2)
  | c :: rest => c :: collapseCommaSpace rest
  | [] => []

/-! ## `minibakeCode` -/

/-- The first statement of `minibakeCode`: `if (str.length & 1) str += " "`. -/
def padEven (str : Str) : Str := if str.length % 2 = 1 then str ++ [32] else str

/-- One turn of the packing loop: `output += String.fromCharCode((cc1 << 8) | cc2)`
with `cc1`, `cc2` the code units at `2 i` and `2 i + 1`. Code units are below
`2 ^ 16`, so the 32-bit shift does not overflow. -/
def packStep (str : Str) (output : Str) (i : Nat) : Str :=
  output ++ [fromCharCode ((charCodeAt str (i * 2) <<< 8) ||| charCodeAt str (i * 2 + 1))]

/-- The packing loop `for (let i = 0; i < len; i++)` with `len = floor(str.length / 2)`. -/
def packPairs (str : Str) : Str := (List.range (str.length / 2)).foldl (packStep str) []

/-- The text before the payload in the wrapper `minibakeCode` emits. -/
def wrapperHead : Str := toUnits "eval(unescape(escape`"

/-- The text after the payload in the wrapper `minibakeCode` emits. -/
def wrapperTail : Str := toUnits "`.replace(/u(..)/g,\"$1%\")))"

/-- `Actions.minibakeCode(str)`. -/
def minibakeCode (str : Str) : Str :=
  wrapperHead ++ packPairs (collapseCommaSpace (padEven str)) ++ wrapperTail

/-! ## `unminibakeCode` -/

/-- `p` followed by the rest: the rest of `s` when `s` starts with `p`. -/
def stripLit (p s : Str) : Option Str := if p.isPrefixOf s then some (s.drop p.length) else none

/-- The character class of the three quote characters: double quote, single quote, backtick. -/
def isQuote (c : Nat) : Bool := c == 34 || c == 39 || c == 96

/-- The alternatives of the opening delimiter: a backtick, or a parenthesis followed by
a single quote, a double quote or a backtick. In the order of the source. -/
def openAlts : List Str := [[96], [40, 39], [40, 34], [40, 96]]

/-- The alternatives of the closing delimiter: a backtick, or a single quote, a double
quote or a backtick followed by a parenthesis. In the order of the source. -/
def closeAlts : List Str := [[96], [39, 41], [34, 41], [96, 41]]

/-- The end of the wrapper's regular expression, after the closing delimiter: any one
code unit but a line terminator (the dot before `replace` is not escaped in the
source), then `replace(/u(..)/g,`, a quote, `$1%`, a quote, `)))` and the end of input. -/
def matchReplaceCall (s : Str) : Bool :=
  match s with
  | [] => false
  | d :: s1 =>
    !isLineTerminator d &&
    match stripLit (toUnits "replace(/u(..)/g,") s1 with
    | some (q1 :: s2) =>
      isQuote q1 &&
      match stripLit (toUnits "$1%") s2 with
      | some (q2 :: s3) => isQuote q2 && s3 == toUnits ")))"
      | _ => false
    | _ => false

/-- The regular expression from the closing delimiter on: some alternative of the
closing delimiter, followed by `matchReplaceCall`. -/
def matchClose (s : Str) : Bool :=
  closeAlts.any fun c => match stripLit c s with
    | some r => matchReplaceCall r
    | none => false

/-- The lazy group `(.*?)` and what follows it: the shortest run of code units that
are not line terminators after which the rest of the expression matches. `acc` is
what the group holds so far. -/
def lazyCapture (acc : Str) : Str → Option Str
  | [] => if matchClose [] then some acc else none
  | c :: cs =>
    if matchClose (c :: cs) then some acc
    else if isLineTerminator c then none
    else lazyCapture (acc ++ [c]) cs

/-- The match of the regular expression of `unminibakeCode` against the whole of `s`
(it is anchored at both ends); the result is the capture group `p1`. -/
def matchWrapper (s : Str) : Option Str :=
  match stripLit (toUnits "eval(unescape(escape") s with
  | none => none
  | some r => openAlts.findSome? fun o => (stripLit o r).bind (lazyCapture [])

/-- `Actions.unminibakeCode(str)`: the trimmed text, with the match of the wrapper
expression (the whole text, if it matches) replaced by
`unescape(escape(p1).replace(/u(..)/g, '$1%'))`. -/
def unminibakeCode (str : Str) : Str :=
  match matchWrapper (trim str) with
  | some p1 => unescape (replaceU (escape p1))
  | none => trim str

/-! ## `commaFormat` -/

/-- The fields of `Actions` that `commaFormat` reads. -/
structure Config where
  /-- Field `this.considerParens` (set to `true` by the constructor). -/
  considerParens : Bool
  /-- Field `this.MaxParenLayersAllowed` (set to `0` by the constructor). -/
  MaxParenLayersAllowed : Int
deriving DecidableEq

/-- The configuration the constructor of `Actions` sets. -/
def defaultConfig : Config := ⟨true, 0⟩

/-- The object `commaFormat` returns, `null` being `none`. -/
structure FormatResult where
  /-- Property `error`. -/
  error : Option Str
  /-- Property `code`. -/
  code : Option Str
deriving DecidableEq

/-- The reason reported for brackets that do not balance. -/
def unbalancedArray : Str := toUnits "Unbalanced array"

/-- The reason reported for parentheses that do not balance (spelled as in the source). -/
def unbalancedParens : Str := toUnits "Unbalanced parenthesies"

/-- The local variables of `commaFormat`. -/
structure ScanState where
  /-- The text, which grows as newlines are inserted. -/
  output : Str
  /-- The loop index. -/
  i : Nat
  /-- Open parentheses met outside strings, minus closed ones. -/
  parenLayerCount : Int
  /-- Either `false` (`none`) or the quote character the string was opened with. -/
  inString : Option Nat
  /-- Open brackets met outside strings, minus closed ones; it starts as `false`,
  which compares and counts as `0`. -/
  arrayLayerCount : Int
deriving DecidableEq

/-- The expression `output[i - 1]`: `undefined` (`none`) when `i` is `0`. -/
def prevUnit (st : ScanState) : Option Nat :=
  if st.i = 0 then none else st.output[st.i - 1]?

/-- The body of the `for` loop of `commaFormat`, the `switch` on `output[i]`: either
the state after the body, or the object of an early `return`. -/
def commaFormatBody (cfg : Config) (st : ScanState) : Except FormatResult ScanState :=
  match st.output[st.i]? with
  | none => .ok st
  | some c =>
    if c = 44 then
      if (decide (st.parenLayerCount < cfg.MaxParenLayersAllowed + 1) || !cfg.considerParens)
          && (st.arrayLayerCount == 0) && st.inString.isNone
          && (st.output[st.i + 1]? != some 10) then
        .ok { st with output := st.output.take st.i ++ [c, 10] ++ st.output.drop (st.i + 1) }
      else .ok st
    else if c = 96 ∨ c = 39 ∨ c = 34 then
      if st.inString.isSome && (prevUnit st != some 92) then
        if st.inString = some c then .ok { st with inString := none } else .ok st
      else .ok { st with inString := some c }
    else if c = 91 then
      if st.inString.isNone then .ok { st with arrayLayerCount := st.arrayLayerCount + 1 }
      else .ok st
    else if c = 93 then
      if st.inString.isNone then
        if st.arrayLayerCount - 1 < 0 then .error ⟨some unbalancedArray, none⟩
        else .ok { st with arrayLayerCount := st.arrayLayerCount - 1 }
      else .ok st
    else if c = 40 then
      if st.inString.isNone then .ok { st with parenLayerCount := st.parenLayerCount + 1 }
      else .ok st
    else if c = 41 then
      if st.inString.isNone then
        if st.parenLayerCount - 1 < 0 then .error ⟨some unbalancedParens, none⟩
        else .ok { st with parenLayerCount := st.parenLayerCount - 1 }
      else .ok st
    else .ok st

/-- The statements after the loop of `commaFormat`. -/
def commaFormatEnd (st : ScanState) : FormatResult :=
  if st.arrayLayerCount > 0 then ⟨some unbalancedArray, none⟩
  else if st.parenLayerCount > 0 then ⟨some unbalancedParens, none⟩
  else ⟨none, some st.output⟩

/-- The loop `for (let i = 0; i < output.length; i++)` of `commaFormat` followed by the
statements after it, run for at most `fuel` tests of the loop condition; `none` when
the fuel runs out. -/
def commaFormatLoop (cfg : Config) : Nat → ScanState → Option FormatResult
  | 0, _ => none
  | fuel + 1, st =>
    if st.i < st.output.length then
      match commaFormatBody cfg st with
      | .error r => some r
      | .ok st2 => commaFormatLoop cfg fuel { st2 with i := st2.i + 1 }
    else some (commaFormatEnd st)

/-- `Actions.commaFormat(initialCode)`. The loop tests its condition at most
`2 * initialCode.length + 1` times, the fuel given here; it never runs out. -/
def commaFormat (cfg : Config) (initialCode : Str) : Option FormatResult :=
  commaFormatLoop cfg (2 * initialCode.length + 1) ⟨initialCode, 0, 0, none, 0⟩

/-! ## The scan of `commaFormat` as one pass over the input -/

/-- What `commaFormat` carries from one character of the input to the next: whether
the character before is a backslash, and the three variables of the scan. -/
structure Track where
  /-- The character before the current one is a backslash (`output[i - 1] == '\\'`). -/
  escaped : Bool
  /-- Variable `parenLayerCount`. -/
  paren : Int
  /-- Variable `inString`. -/
  inString : Option Nat
  /-- Variable `arrayLayerCount`. -/
  array : Int
deriving DecidableEq

/-- The state before the first character. -/
def Track.init : Track := ⟨false, 0, none, 0⟩

/-- The `case` of the three quote characters: the new value of `inString`. -/
def quoteStep (inString : Option Nat) (escaped : Bool) (c : Nat) : Option Nat :=
  if inString.isSome && !escaped then
    if inString = some c then none else inString
  else some c

/-- The effect of one character of the input on the variables of the scan (the early
returns apart, see `abortReason`). -/
def trackStep (t : Track) (c : Nat) : Track where
  escaped := c == 92
  paren :=
    if c = 40 ∧ t.inString = none then t.paren + 1
    else if c = 41 ∧ t.inString = none then t.paren - 1
    else t.paren
  inString := if c = 96 ∨ c = 39 ∨ c = 34 then quoteStep t.inString t.escaped c else t.inString
  array :=
    if c = 91 ∧ t.inString = none then t.array + 1
    else if c = 93 ∧ t.inString = none then t.array - 1
    else t.array

/-- The reason of the early `return` at character `c`, if there is one: a closing
bracket outside a string whose counter goes below zero. -/
def abortReason (t : Track) (c : Nat) : Option Str :=
  if c = 93 ∧ t.inString = none ∧ t.array - 1 < 0 then some unbalancedArray
  else if c = 41 ∧ t.inString = none ∧ t.paren - 1 < 0 then some unbalancedParens
  else none

/-- The condition of the `if` in the `case` of the comma, `next` being `output[i + 1]`. -/
def eligible (cfg : Config) (t : Track) (next : Option Nat) : Bool :=
  (decide (t.paren < cfg.MaxParenLayersAllowed + 1) || !cfg.considerParens)
    && (t.array == 0) && t.inString.isNone && (next != some 10)

/-- What the output holds for the character `c` of the input: the character, and a
newline after it when it is a comma that passes the test. -/
def emit (cfg : Config) (t : Track) (c : Nat) (rest : Str) : Str :=
  if c = 44 ∧ eligible cfg t rest.head? = true then [c, 10] else [c]

/-- The statements after the loop, on the variables alone; the code is what was
emitted after the point the result is read from. -/
def finish (t : Track) : FormatResult :=
  if t.array > 0 then ⟨some unbalancedArray, none⟩
  else if t.paren > 0 then ⟨some unbalancedParens, none⟩
  else ⟨none, some []⟩

/-- A result with `pre` put in front of its code, when it has one. -/
def prependCode (pre : Str) (r : FormatResult) : FormatResult :=
  ⟨r.error, r.code.map (pre ++ ·)⟩

/-- The scan of `commaFormat` as a single pass from left to right over the input. -/
def scanPass (cfg : Config) : Track → Str → FormatResult
  | t, [] => finish t
  | t, c :: rest =>
    match abortReason t c with
    | some r => ⟨some r, none⟩
    | none => prependCode (emit cfg t c rest) (scanPass cfg (trackStep t c) rest)

/-- The variables of the scan when it meets the character at index `k` of the input
(after the first `k` characters), early returns apart. -/
def trackAt (input : Str) (k : Nat) : Track := (input.take k).foldl trackStep Track.init

/-- The variables of the scan after `k` further characters of `input`, from `t`. -/
def trackFrom (t : Track) (input : Str) (k : Nat) : Track := (input.take k).foldl trackStep t

/-- The value of `inString` when the scan meets the character at index `k`. -/
def inStringAt (input : Str) (k : Nat) : Option Nat := (trackAt input k).inString

/-- The number of `(` minus the number of `)` among the first `k` characters of the
input, counting only those met outside a string. -/
def parenDepthAt (input : Str) (k : Nat) : Int :=
  ((List.range k).countP fun j => input[j]? == some 40 && (inStringAt input j).isNone) -
  ((List.range k).countP fun j => input[j]? == some 41 && (inStringAt input j).isNone)

/-- The number of `[` minus the number of `]` among the first `k` characters of the
input, counting only those met outside a string. -/
def arrayDepthAt (input : Str) (k : Nat) : Int :=
  ((List.range k).countP fun j => input[j]? == some 91 && (inStringAt input j).isNone) -
  ((List.range k).countP fun j => input[j]? == some 93 && (inStringAt input j).isNone)

/-- The output differs from the input only by newlines inserted immediately after
commas of the input: `NewlinesAfterCommas input output`. -/
inductive NewlinesAfterCommas : Str → Str → Prop
  | nil : NewlinesAfterCommas [] []
  | keep (c : Nat) {xs ys : Str} : NewlinesAfterCommas xs ys →
      NewlinesAfterCommas (c :: xs) (c :: ys)
  | insert {xs ys : Str} : NewlinesAfterCommas xs ys →
      NewlinesAfterCommas (44 :: xs) (44 :: 10 :: ys)

/-- The input with a newline inserted after each character whose mark is `true`. -/
def insertNewlines : Str → List Bool → Str
  | [], _ => []
  | c :: cs, [] => c :: insertNewlines cs []
  | c :: cs, m :: ms =>
    if m then c :: 10 :: insertNewlines cs ms else c :: insertNewlines cs ms

/-- A closing bracket met outside a string while its own counter is zero. -/
def prematureClose (t : Track) (c : Nat) : Prop :=
  t.inString = none ∧ ((c = 41 ∧ t.paren = 0) ∨ (c = 93 ∧ t.array = 0))

instance (t : Track) (c : Nat) : Decidable (prematureClose t c) := by
  unfold prematureClose; infer_instance

/-- The character at index `k` of the input is a closing bracket met outside a string
while its own counter (`parenDepthAt`, `arrayDepthAt`) is zero. -/
def prematureCloseAt (input : Str) (k : Nat) : Prop :=
  inStringAt input k = none ∧
    ((input[k]? = some 41 ∧ parenDepthAt input k = 0) ∨
     (input[k]? = some 93 ∧ arrayDepthAt input k = 0))

instance (input : Str) (k : Nat) : Decidable (prematureCloseAt input k) := by
  unfold prematureCloseAt; infer_instance

/-- The marks of the single pass: for each character of the input, whether a newline
is inserted after it. -/
def marksFrom (cfg : Config) : Track → Str → List Bool
  | _, [] => []
  | t, c :: rest =>
    decide (c = 44 ∧ eligible cfg t rest.head? = true) :: marksFrom cfg (trackStep t c) rest

/-- The reason `commaFormat` gives for a premature closing bracket `c`. -/
def reasonOf (c : Nat) : Str := if c = 93 then unbalancedArray else unbalancedParens

/-- A premature closing bracket at index `k` of `input`, the scan starting from `t`. -/
def prematureFrom (t : Track) (input : Str) (k : Nat) : Prop :=
  ∃ c, input[k]? = some c ∧ prematureClose (trackFrom t input k) c

/-- The in-string rule in the words of the specification: a quote character met outside
a string opens a string keyed by it; inside a string only the same quote character, not
preceded by a backslash, closes it; any other quote character leaves the state as it is. -/
def specQuoteStep (inString : Option Nat) (escaped : Bool) (c : Nat) : Option Nat :=
  match inString with
  | none => some c
  | some q => if c = q ∧ escaped = false then none else some q

/-- One character of the input under the rule of the specification: whether it is a
backslash, and the in-string state after it. -/
def specQuoteTrack (st : Bool × Option Nat) (c : Nat) : Bool × Option Nat :=
  (c == 92, if c = 96 ∨ c = 39 ∨ c = 34 then specQuoteStep st.2 st.1 c else st.2)

/-- The in-string state at index `k` of the input under the rule of the specification. -/
def specInStringAt (input : Str) (k : Nat) : Option Nat :=
  ((input.take k).foldl specQuoteTrack (false, none)).2

/-- The normalized text in the words of the specification: one space appended when the
text has odd length, then every comma followed by a space replaced by a comma. -/
def normalize (text : Str) : Str :=
  collapseCommaSpace (if text.length % 2 = 1 then text ++ [32] else text)

/-- The packed code unit of the pair `a`, `b`. -/
def packUnit (a b : Nat) : Nat := fromCharCode ((a <<< 8) ||| b)

/-- The text `replace(/u(..)/g,` of the wrapper. -/
def litReplace : Str := toUnits "replace(/u(..)/g,"

/-- The text `$1%` of the wrapper. -/
def litDollar : Str := toUnits "$1%"

/-- The text `)))` that ends the wrapper. -/
def litParens : Str := toUnits ")))"

/-- The text `eval(unescape(escape` that starts the wrapper. -/
def litEval : Str := toUnits "eval(unescape(escape"

/-- A wrapper text: `eval(unescape(escape`, an opening delimiter `o`, the payload `p`, a
closing delimiter `c`, one code unit `d` (a dot in what `minibakeCode` emits),
`replace(/u(..)/g,`, a quote `q1`, `$1%`, a quote `q2` and `)))`. -/
def wrapperText (o c : Str) (d q1 q2 : Nat) (p : Str) : Str :=
  litEval ++ (o ++ (p ++ (c ++ d :: (litReplace ++ q1 :: (litDollar ++ q2 :: litParens)))))

/-- The language of the regular expression of `unminibakeCode`: `t` is a wrapper text
with payload `p`, the payload and the code unit before `replace` holding no line
terminator, the delimiters being any of the alternatives, `q1` and `q2` quotes. -/
def WrapperMatch (t p : Str) : Prop :=
  ∃ o ∈ openAlts, ∃ c ∈ closeAlts, ∃ d q1 q2,
    (∀ x ∈ p, isLineTerminator x = false) ∧ isLineTerminator d = false ∧
    isQuote q1 = true ∧ isQuote q2 = true ∧ t = wrapperText o c d q1 q2 p

/-- The four quoting variants of the payload, each an opening delimiter with its closing
delimiter: backticks, `('` and `')`, `("` and `")`, and a parenthesised pair of backticks. -/
def delimiterPairs : List (Str × Str) :=
  [([96], [96]), ([40, 39], [39, 41]), ([40, 34], [34, 41]), ([40, 96], [96, 41])]

/-- The wrapper grammar in the words of the specification: `eval(unescape(escape`, a
payload delimited in one of the four quoting variants, `.replace(/u(..)/g,`, a quote,
`$1%`, a quote and `)))`. -/
def WrapperGrammar (t : Str) : Prop :=
  ∃ oc ∈ delimiterPairs, ∃ p q1 q2, isQuote q1 = true ∧ isQuote q2 = true ∧
    t = wrapperText oc.1 oc.2 46 q1 q2 p

/-- A text the packer gives back: it is made of pairs of bytes, the first of each pair
not zero, and no pair is a space followed by `(` or `)` (the pairs that pack to the line
terminators U+2028 and U+2029). -/
def Packable : Str → Prop
  | [] => True
  | [_] => False
  | a :: b :: rest =>
    (1 ≤ a ∧ a < 256 ∧ b < 256 ∧ ¬ (a = 32 ∧ (b = 40 ∨ b = 41))) ∧ Packable rest

/-- No code unit at an even index is zero. -/
def NoNulAtEven (n : Str) : Prop := ∀ i, i < n.length → i % 2 = 0 → n[i]? ≠ some 0

instance (n : Str) : Decidable (NoNulAtEven n) := by
  unfold NoNulAtEven; infer_instance

/-- No pair `(n[2i], n[2i+1])` is a space followed by `(` or by `)`. -/
def NoTerminatorPair (n : Str) : Prop :=
  ∀ i, i < n.length → i % 2 = 0 → n[i]? = some 32 → n[i + 1]? ≠ some 40 ∧ n[i + 1]? ≠ some 41

instance (n : Str) : Decidable (NoTerminatorPair n) := by
  unfold NoTerminatorPair; infer_instance


/-! ## `bake` of `index.mjs` -/

/-- What method `bake` of `index.mjs` does to the page: it shows an alert, or it gives
the editor a new value. -/
inductive BakeEffect
  | okAlert (message : Str)
  | setValue (code : Str)
deriving DecidableEq

/-- Method `bake` of `index.mjs`, `toEncode` being the value of the editor: a text that
`unminibakeCode` changes counts as already packed; otherwise the packed text is
accepted when `unminibakeCode` changes it, and dropped when it comes back as it is. -/
def bake (toEncode : Str) : BakeEffect :=
  if unminibakeCode toEncode ≠ toEncode then
    .okAlert (toUnits "Code is already minibaked.")
  else
    let l := minibakeCode toEncode
    if unminibakeCode l ≠ l then .setValue l
    else .okAlert (toUnits "Minibaking reverted: the player will lag!")

/-! ## The loop over the growing output is the single pass -/

theorem getElem?_append_length (done rest : Str) (c : Nat) :
    (done ++ c :: rest)[done.length]? = some c := by
  rw [List.getElem?_append_right (le_refl _)]; simp

theorem getElem?_append_length_succ (done rest : Str) (c : Nat) :
    (done ++ c :: rest)[done.length + 1]? = rest.head? := by
  rw [List.getElem?_append_right (by omega)]
  cases rest <;> simp

theorem prevUnit_append (done rest : Str) (p : Int) (s : Option Nat) (a : Int) :
    prevUnit ⟨done ++ rest, done.length, p, s, a⟩ = done.getLast? := by
  unfold prevUnit
  rcases List.eq_nil_or_concat done with h | ⟨l, x, h⟩
  · subst h; simp
  · subst h
    have h := getElem?_append_length l rest x
    simpa using h

theorem commaFormatBody_eq (cfg : Config) (done rest : Str) (c : Nat) (t : Track)
    (hesc : t.escaped = (done.getLast? == some 92)) :
    commaFormatBody cfg ⟨done ++ c :: rest, done.length, t.paren, t.inString, t.array⟩ =
      match abortReason t c with
      | some r => .error ⟨some r, none⟩
      | none => .ok ⟨done ++ emit cfg t c rest ++ rest, done.length, (trackStep t c).paren,
          (trackStep t c).inString, (trackStep t c).array⟩ := by
  have hprev := prevUnit_append done (c :: rest) t.paren t.inString t.array
  have htake : List.take done.length (done ++ c :: rest) = done := by simp
  have hdrop : List.drop (done.length + 1) (done ++ c :: rest) = rest := by
    rw [List.drop_append_eq_append_drop]; simp
  unfold commaFormatBody
  simp only [getElem?_append_length, getElem?_append_length_succ, hprev, htake, hdrop]
  have hesc2 : (done.getLast? != some 92) = !t.escaped := by rw [hesc]; rfl
  rw [hesc2]
  by_cases h44 : c = 44
  · subst h44
    by_cases he : eligible cfg t rest.head? = true
    · have he2 := he
      unfold eligible at he2
      simp [abortReason, emit, trackStep, he, he2]
    · have he2 := he
      unfold eligible at he2
      simp [abortReason, emit, trackStep, he, he2]
  by_cases hq : c = 96 ∨ c = 39 ∨ c = 34
  · have h1 : c ≠ 93 := by omega
    have h2 : c ≠ 41 := by omega
    have h3 : c ≠ 91 := by omega
    have h4 : c ≠ 40 := by omega
    simp only [abortReason, emit, trackStep, quoteStep, h44, hq, h1, h2, h3, h4, if_true,
      if_false, false_and, List.append_assoc, List.singleton_append]
    split_ifs <;> simp_all
  by_cases h91 : c = 91
  · subst h91
    cases hs : t.inString <;> simp [abortReason, emit, trackStep, hs]
  by_cases h93 : c = 93
  · subst h93
    cases hs : t.inString <;> simp [abortReason, emit, trackStep, hs]
    split_ifs <;> simp_all
  by_cases h40 : c = 40
  · subst h40
    cases hs : t.inString <;> simp [abortReason, emit, trackStep, hs]
  by_cases h41 : c = 41
  · subst h41
    cases hs : t.inString <;> simp [abortReason, emit, trackStep, hs]
    split_ifs <;> simp_all
  simp [abortReason, emit, trackStep, h44, hq, h91, h93, h40, h41]

theorem prependCode_append (a b : Str) (r : FormatResult) :
    prependCode (a ++ b) r = prependCode a (prependCode b r) := by
  cases r with
  | mk e c => cases c <;> simp [prependCode]

theorem trackStep_newline (t : Track) :
    trackStep t 10 = { t with escaped := false } := by
  simp [trackStep]

theorem abortReason_newline (t : Track) : abortReason t 10 = none := by
  simp [abortReason]

theorem commaFormatLoop_eq (cfg : Config) :
    ∀ (rest done : Str) (t : Track) (fuel : Nat), 2 * rest.length + 1 ≤ fuel →
      t.escaped = (done.getLast? == some 92) →
      commaFormatLoop cfg fuel ⟨done ++ rest, done.length, t.paren, t.inString, t.array⟩ =
        some (prependCode done (scanPass cfg t rest)) := by
  intro rest
  induction rest with
  | nil =>
    intro done t fuel hf _
    obtain ⟨f, rfl⟩ : ∃ f, fuel = f + 1 := ⟨fuel - 1, by omega⟩
    simp only [commaFormatLoop, commaFormatEnd, scanPass, finish, prependCode, List.append_nil,
      lt_irrefl, if_false]
    split_ifs <;> simp
  | cons c rest ih =>
    intro done t fuel hf hesc
    obtain ⟨f, rfl⟩ : ∃ f, fuel = f + 1 := ⟨fuel - 1, by omega⟩
    have hlen : done.length < (done ++ c :: rest).length := by simp
    simp only [List.length_cons] at hf
    rw [commaFormatLoop, if_pos hlen, commaFormatBody_eq cfg done rest c t hesc, scanPass]
    cases hab : abortReason t c with
    | some r => simp [prependCode]
    | none =>
      simp only []
      by_cases hem : c = 44 ∧ eligible cfg t rest.head? = true
      · obtain ⟨rfl, he⟩ := hem
        have hemit : emit cfg t 44 rest = [44, 10] := by simp [emit, he]
        obtain ⟨f2, rfl⟩ : ∃ f2, f = f2 + 1 := ⟨f - 1, by omega⟩
        have hst : (⟨done ++ emit cfg t 44 rest ++ rest, done.length + 1, (trackStep t 44).paren,
            (trackStep t 44).inString, (trackStep t 44).array⟩ : ScanState) =
            ⟨(done ++ [44]) ++ 10 :: rest, (done ++ [44]).length, (trackStep t 44).paren,
            (trackStep t 44).inString, (trackStep t 44).array⟩ := by
          simp [hemit]
        have hlen2 : (done ++ [44]).length < ((done ++ [44]) ++ 10 :: rest).length := by simp
        have hesc1 : (trackStep t 44).escaped = ((done ++ [44]).getLast? == some 92) := by
          simp [trackStep]
        rw [hst, commaFormatLoop, if_pos hlen2,
          commaFormatBody_eq cfg (done ++ [44]) rest 10 (trackStep t 44) hesc1,
          abortReason_newline]
        simp only []
        have hemit2 : emit cfg (trackStep t 44) 10 rest = [10] := by simp [emit]
        have hesc2 : (trackStep t 44).escaped = ((done ++ [44, 10]).getLast? == some 92) := by
          simp [trackStep]
        have key := ih (done ++ [44, 10]) (trackStep t 44) f2 (by omega) hesc2
        rw [prependCode_append done [44, 10]] at key
        rw [hemit2, trackStep_newline, hemit, ← key]
        simp
      · have hemit : emit cfg t c rest = [c] := by simp only [emit, if_neg hem]
        have hesc1 : (trackStep t c).escaped = ((done ++ [c]).getLast? == some 92) := by
          simp [trackStep]
        have key := ih (done ++ [c]) (trackStep t c) f (by omega) hesc1
        rw [prependCode_append done [c]] at key
        rw [hemit, ← key]
        simp

/-- The loop of `commaFormat` over the growing output returns what the single pass over
the input returns; in particular it does return. -/
theorem commaFormat_eq_scanPass (cfg : Config) (input : Str) :
    commaFormat cfg input = some (scanPass cfg Track.init input) := by
  have h := commaFormatLoop_eq cfg input [] Track.init (2 * input.length + 1) (le_refl _)
    (by simp [Track.init])
  have hp : prependCode [] (scanPass cfg Track.init input) = scanPass cfg Track.init input := by
    cases hr : scanPass cfg Track.init input with
    | mk e c => cases c <;> simp [prependCode]
  rw [hp] at h
  simpa [commaFormat, Track.init] using h

/-! ## Facts about the single pass -/

theorem prependCode_eq_ok {pre : Str} {r : FormatResult} {out : Str}
    (h : prependCode pre r = ⟨none, some out⟩) :
    ∃ out2, r = ⟨none, some out2⟩ ∧ out = pre ++ out2 := by
  cases r with
  | mk e c =>
    cases c with
    | none => simp [prependCode] at h
    | some o =>
      simp only [prependCode, Option.map_some', FormatResult.mk.injEq, Option.some.injEq] at h
      exact ⟨o, by rw [h.1], h.2.symm⟩

theorem scanPass_cons_ok {cfg : Config} {t : Track} {c : Nat} {rest out : Str}
    (h : scanPass cfg t (c :: rest) = ⟨none, some out⟩) :
    abortReason t c = none ∧ ∃ out2, scanPass cfg (trackStep t c) rest = ⟨none, some out2⟩ ∧
      out = emit cfg t c rest ++ out2 := by
  rw [scanPass] at h
  cases hab : abortReason t c with
  | some r => rw [hab] at h; simp at h
  | none =>
    rw [hab] at h
    exact ⟨rfl, prependCode_eq_ok h⟩

theorem scanPass_newlinesAfterCommas (cfg : Config) :
    ∀ (input : Str) (t : Track) (out : Str), scanPass cfg t input = ⟨none, some out⟩ →
      NewlinesAfterCommas input out := by
  intro input
  induction input with
  | nil =>
    intro t out h
    simp only [scanPass, finish] at h
    split_ifs at h
    · simp at h
    · simp at h
    · simp only [FormatResult.mk.injEq, Option.some.injEq, true_and] at h
      subst h
      exact NewlinesAfterCommas.nil
  | cons c rest ih =>
    intro t out h
    obtain ⟨_, out2, h2, rfl⟩ := scanPass_cons_ok h
    have hr := ih _ _ h2
    by_cases hem : c = 44 ∧ eligible cfg t rest.head? = true
    · obtain ⟨rfl, he⟩ := hem
      have hemit : emit cfg t 44 rest = [44, 10] := by simp [emit, he]
      rw [hemit]
      exact NewlinesAfterCommas.insert hr
    · have hemit : emit cfg t c rest = [c] := by simp only [emit, if_neg hem]
      rw [hemit]
      exact NewlinesAfterCommas.keep c hr

theorem trackFrom_zero (t : Track) (input : Str) : trackFrom t input 0 = t := by
  simp [trackFrom]

theorem trackFrom_cons_succ (t : Track) (c : Nat) (rest : Str) (k : Nat) :
    trackFrom t (c :: rest) (k + 1) = trackFrom (trackStep t c) rest k := by
  simp [trackFrom]

theorem trackFrom_succ (t : Track) (input : Str) (k : Nat) (c : Nat) (h : input[k]? = some c) :
    trackFrom t input (k + 1) = trackStep (trackFrom t input k) c := by
  simp [trackFrom, List.take_succ, h, List.foldl_append]

theorem trackFrom_succ_none (t : Track) (input : Str) (k : Nat) (h : input[k]? = none) :
    trackFrom t input (k + 1) = trackFrom t input k := by
  simp [trackFrom, List.take_succ, h]

theorem trackAt_eq_trackFrom (input : Str) (k : Nat) :
    trackAt input k = trackFrom Track.init input k := rfl

theorem parenDepthAt_eq (input : Str) (k : Nat) :
    parenDepthAt input k = (trackAt input k).paren := by
  induction k with
  | zero => simp [parenDepthAt, trackAt, Track.init]
  | succ k ih =>
    have ih2 := ih
    unfold parenDepthAt at ih2 ⊢
    rw [List.range_succ, List.countP_append, List.countP_append]
    cases hk : input[k]? with
    | none =>
      rw [trackAt_eq_trackFrom, trackFrom_succ_none _ _ _ hk, ← trackAt_eq_trackFrom, ← ih2]
      simp [List.countP_cons, hk]
    | some c =>
      rw [trackAt_eq_trackFrom, trackFrom_succ _ _ _ c hk, ← trackAt_eq_trackFrom]
      simp only [trackStep]
      rw [← ih2]
      simp only [List.countP_cons, List.countP_nil, hk, inStringAt]
      cases hs : (trackAt input k).inString <;> by_cases h40 : c = 40 <;>
        by_cases h41 : c = 41 <;> simp [h40, h41] <;> omega

theorem arrayDepthAt_eq (input : Str) (k : Nat) :
    arrayDepthAt input k = (trackAt input k).array := by
  induction k with
  | zero => simp [arrayDepthAt, trackAt, Track.init]
  | succ k ih =>
    have ih2 := ih
    unfold arrayDepthAt at ih2 ⊢
    rw [List.range_succ, List.countP_append, List.countP_append]
    cases hk : input[k]? with
    | none =>
      rw [trackAt_eq_trackFrom, trackFrom_succ_none _ _ _ hk, ← trackAt_eq_trackFrom, ← ih2]
      simp [List.countP_cons, hk]
    | some c =>
      rw [trackAt_eq_trackFrom, trackFrom_succ _ _ _ c hk, ← trackAt_eq_trackFrom]
      simp only [trackStep]
      rw [← ih2]
      simp only [List.countP_cons, List.countP_nil, hk, inStringAt]
      cases hs : (trackAt input k).inString <;> by_cases h91 : c = 91 <;>
        by_cases h93 : c = 93 <;> simp [h91, h93] <;> omega

theorem marksFrom_length (cfg : Config) :
    ∀ (input : Str) (t : Track), (marksFrom cfg t input).length = input.length := by
  intro input
  induction input with
  | nil => intro t; rfl
  | cons c rest ih => intro t; simp [marksFrom, ih]

theorem marksFrom_getD (cfg : Config) :
    ∀ (input : Str) (t : Track) (k : Nat),
      (marksFrom cfg t input).getD k false =
        decide (input[k]? = some 44 ∧
          eligible cfg (trackFrom t input k) input[k + 1]? = true) := by
  intro input
  induction input with
  | nil => intro t k; simp [marksFrom]
  | cons c rest ih =>
    intro t k
    cases k with
    | zero =>
      simp only [marksFrom, List.getD_cons_zero, trackFrom_zero, List.getElem?_cons_zero,
        Option.some.injEq, zero_add, List.getElem?_cons_succ]
      cases rest <;> simp
    | succ k =>
      simp only [marksFrom, List.getD_cons_succ, ih, trackFrom_cons_succ,
        List.getElem?_cons_succ]

theorem scanPass_eq_insertNewlines (cfg : Config) :
    ∀ (input : Str) (t : Track) (out : Str), scanPass cfg t input = ⟨none, some out⟩ →
      out = insertNewlines input (marksFrom cfg t input) := by
  intro input
  induction input with
  | nil =>
    intro t out h
    simp only [scanPass, finish] at h
    split_ifs at h
    · simp at h
    · simp at h
    · simp only [FormatResult.mk.injEq, Option.some.injEq, true_and] at h
      subst h
      rfl
  | cons c rest ih =>
    intro t out h
    obtain ⟨_, out2, h2, rfl⟩ := scanPass_cons_ok h
    have hr := ih _ _ h2
    by_cases hem : c = 44 ∧ eligible cfg t rest.head? = true
    · have hemit : emit cfg t c rest = [c, 10] := by simp only [emit, if_pos hem]
      have hd : decide (c = 44 ∧ eligible cfg t rest.head? = true) = true := decide_eq_true hem
      rw [hemit, marksFrom, insertNewlines, hd, if_pos rfl, ← hr]
      rfl
    · have hemit : emit cfg t c rest = [c] := by simp only [emit, if_neg hem]
      have hd : decide (c = 44 ∧ eligible cfg t rest.head? = true) = false :=
        decide_eq_false hem
      rw [hemit, marksFrom, insertNewlines, hd, ← hr]
      rfl

theorem prematureCloseAt_iff (input : Str) (k : Nat) :
    prematureCloseAt input k ↔ prematureFrom Track.init input k := by
  unfold prematureCloseAt prematureFrom prematureClose
  rw [parenDepthAt_eq, arrayDepthAt_eq, inStringAt, ← trackAt_eq_trackFrom]
  constructor
  · rintro ⟨hs, h | h⟩
    · exact ⟨41, h.1, hs, Or.inl ⟨rfl, h.2⟩⟩
    · exact ⟨93, h.1, hs, Or.inr ⟨rfl, h.2⟩⟩
  · rintro ⟨c, hc, hs, h | h⟩
    · exact ⟨hs, Or.inl ⟨by rw [hc, h.1], h.2⟩⟩
    · exact ⟨hs, Or.inr ⟨by rw [hc, h.1], h.2⟩⟩

theorem abortReason_of_premature {t : Track} {c : Nat} (h : prematureClose t c) :
    abortReason t c = some (reasonOf c) := by
  obtain ⟨hs, h | h⟩ := h
  · obtain ⟨rfl, hp⟩ := h
    simp [abortReason, reasonOf, hs, hp]
  · obtain ⟨rfl, ha⟩ := h
    simp [abortReason, reasonOf, hs, ha]

theorem abortReason_of_not_premature {t : Track} {c : Nat} (hp : 0 ≤ t.paren)
    (ha : 0 ≤ t.array) (h : ¬ prematureClose t c) :
    abortReason t c = none ∧ 0 ≤ (trackStep t c).paren ∧ 0 ≤ (trackStep t c).array := by
  unfold prematureClose at h
  simp only [abortReason, trackStep]
  refine ⟨?_, ?_, ?_⟩
  · split_ifs with h1 h2
    · exact absurd ⟨h1.2.1, Or.inr ⟨h1.1, by omega⟩⟩ h
    · exact absurd ⟨h2.2.1, Or.inl ⟨h2.1, by omega⟩⟩ h
    · rfl
  · split_ifs with h1 h2
    · omega
    · have : t.paren ≠ 0 := fun h0 => h ⟨h2.2, Or.inl ⟨h2.1, h0⟩⟩
      omega
    · exact hp
  · split_ifs with h1 h2
    · omega
    · have : t.array ≠ 0 := fun h0 => h ⟨h2.2, Or.inr ⟨h2.1, h0⟩⟩
      omega
    · exact ha

theorem prependCode_error (pre : Str) (r : FormatResult) :
    (prependCode pre r).error = r.error := rfl

/-- The scan aborts at the first premature closing bracket, with the reason of its kind. -/
theorem scanPass_first_premature (cfg : Config) :
    ∀ (input : Str) (t : Track) (k c : Nat), 0 ≤ t.paren → 0 ≤ t.array →
      (∀ j, j < k → ¬ prematureFrom t input j) → input[k]? = some c →
      prematureClose (trackFrom t input k) c →
      scanPass cfg t input = ⟨some (reasonOf c), none⟩ := by
  intro input
  induction input with
  | nil => intro t k c _ _ _ hk; simp at hk
  | cons x rest ih =>
    intro t k c hp ha hbefore hk hprem
    cases k with
    | zero =>
      simp only [List.getElem?_cons_zero, Option.some.injEq] at hk
      subst hk
      rw [trackFrom_zero] at hprem
      rw [scanPass, abortReason_of_premature hprem]
    | succ k =>
      have h0 : ¬ prematureClose t x := fun h =>
        hbefore 0 (Nat.succ_pos k) ⟨x, by simp, by rw [trackFrom_zero]; exact h⟩
      obtain ⟨hab, hp2, ha2⟩ := abortReason_of_not_premature hp ha h0
      rw [scanPass, hab]
      simp only []
      rw [trackFrom_cons_succ] at hprem
      have hb2 : ∀ j, j < k → ¬ prematureFrom (trackStep t x) rest j := by
        intro j hj hpj
        apply hbefore (j + 1) (by omega)
        obtain ⟨d, hd, hpd⟩ := hpj
        exact ⟨d, by simpa using hd, by rw [trackFrom_cons_succ]; exact hpd⟩
      rw [ih (trackStep t x) k c hp2 ha2 hb2 (by simpa using hk) hprem]
      rfl

/-- Without a premature closing bracket the scan reaches the end of the input, and the
statements after the loop decide between error and success. -/
theorem scanPass_no_premature (cfg : Config) :
    ∀ (input : Str) (t : Track), 0 ≤ t.paren → 0 ≤ t.array →
      (∀ j, j < input.length → ¬ prematureFrom t input j) →
      (scanPass cfg t input).error = (finish (trackFrom t input input.length)).error := by
  intro input
  induction input with
  | nil => intro t _ _ _; simp [scanPass, trackFrom]
  | cons x rest ih =>
    intro t hp ha hno
    have h0 : ¬ prematureClose t x := fun h =>
      hno 0 (by simp) ⟨x, by simp, by rw [trackFrom_zero]; exact h⟩
    obtain ⟨hab, hp2, ha2⟩ := abortReason_of_not_premature hp ha h0
    rw [scanPass, hab]
    simp only [List.length_cons]
    rw [prependCode_error, trackFrom_cons_succ]
    apply ih _ hp2 ha2
    intro j hj hpj
    apply hno (j + 1) (by simp; omega)
    obtain ⟨d, hd, hpd⟩ := hpj
    exact ⟨d, by simpa using hd, by rw [trackFrom_cons_succ]; exact hpd⟩

/-- The result of the scan is of one of the two forms, never a mix. -/
theorem scanPass_shape (cfg : Config) :
    ∀ (input : Str) (t : Track),
      (∃ reason, scanPass cfg t input = ⟨some reason, none⟩) ∨
      (∃ text, scanPass cfg t input = ⟨none, some text⟩) := by
  intro input
  induction input with
  | nil =>
    intro t
    simp only [scanPass, finish]
    split_ifs
    · exact Or.inl ⟨_, rfl⟩
    · exact Or.inl ⟨_, rfl⟩
    · exact Or.inr ⟨_, rfl⟩
  | cons x rest ih =>
    intro t
    rw [scanPass]
    cases hab : abortReason t x with
    | some r => exact Or.inl ⟨r, rfl⟩
    | none =>
      simp only []
      rcases ih (trackStep t x) with ⟨r, hr⟩ | ⟨o, ho⟩
      · exact Or.inl ⟨r, by rw [hr]; rfl⟩
      · exact Or.inr ⟨emit cfg t x rest ++ o, by rw [ho]; rfl⟩

theorem eligible_iff (cfg : Config) (input : Str) (k : Nat) :
    eligible cfg (trackAt input k) input[k + 1]? = true ↔
      ((parenDepthAt input k < cfg.MaxParenLayersAllowed + 1 ∨ cfg.considerParens = false) ∧
        arrayDepthAt input k = 0 ∧ inStringAt input k = none ∧ input[k + 1]? ≠ some 10) := by
  rw [parenDepthAt_eq, arrayDepthAt_eq, inStringAt]
  simp [eligible, and_assoc]

theorem prematureFrom_take_append (t : Track) (input post : Str) (k j : Nat)
    (hk : k < input.length) (hj : j ≤ k) :
    prematureFrom t (input.take (k + 1) ++ post) j ↔ prematureFrom t input j := by
  have h1 : (input.take (k + 1) ++ post)[j]? = input[j]? := by
    rw [List.getElem?_append_left (by simp; omega), List.getElem?_take_of_lt (by omega)]
  have h2 : (input.take (k + 1) ++ post).take j = input.take j := by
    rw [List.take_append_of_le_length (by simp; omega), List.take_take]
    congr 1
    omega
  unfold prematureFrom trackFrom
  rw [h1, h2]

/-! ## The claims about `commaFormat` -/

/-- C3: when `commaFormat` succeeds, its code differs from the input only by newline
characters inserted immediately after commas of the input: deleting the inserted
newlines gives back the input, no character is deleted, reordered or rewritten, and no
comma is consumed or duplicated. -/
theorem commaFormat_only_inserts_newlines (cfg : Config) (input : Str) (r : FormatResult)
    (h : commaFormat cfg input = some r) (hok : r.error = none) :
    ∃ out, r.code = some out ∧ NewlinesAfterCommas input out := by
  rw [commaFormat_eq_scanPass] at h
  rcases scanPass_shape cfg input Track.init with ⟨e, he⟩ | ⟨o, ho⟩
  · rw [he] at h
    simp only [Option.some.injEq] at h
    subst h
    simp at hok
  · have := scanPass_newlinesAfterCommas cfg input Track.init o ho
    rw [ho] at h
    simp only [Option.some.injEq] at h
    subst h
    exact ⟨o, rfl, this⟩

theorem commaFormat_only_inserts_newlines_witness :
    commaFormat defaultConfig (toUnits "f(a,b),c") =
        some ⟨none, some (toUnits "f(a,b),\nc")⟩ ∧
      ∃ out, (FormatResult.mk none (some (toUnits "f(a,b),\nc"))).code = some out ∧
        NewlinesAfterCommas (toUnits "f(a,b),c") out :=
  ⟨by decide, commaFormat_only_inserts_newlines defaultConfig _ _ (by decide) rfl⟩

/-- C4: with `considerParens` true, on success the code is the input with newlines
inserted after marked commas only (never before an existing newline), and a comma met
outside a string, at array depth 0 and not already followed by a newline is marked if
and only if the paren depth at that comma is less than `MaxParenLayersAllowed + 1`. -/
theorem commaFormat_paren_eligibility (input out : Str) (maxLayers : Int)
    (h : commaFormat ⟨true, maxLayers⟩ input = some ⟨none, some out⟩) :
    ∃ marks : List Bool, marks.length = input.length ∧ out = insertNewlines input marks ∧
      (∀ k, marks.getD k false = true → input[k]? = some 44 ∧ input[k + 1]? ≠ some 10) ∧
      (∀ k, input[k]? = some 44 → inStringAt input k = none → arrayDepthAt input k = 0 →
        input[k + 1]? ≠ some 10 →
        (marks.getD k false = true ↔ parenDepthAt input k < maxLayers + 1)) := by
  rw [commaFormat_eq_scanPass] at h
  simp only [Option.some.injEq] at h
  refine ⟨marksFrom ⟨true, maxLayers⟩ Track.init input, marksFrom_length _ _ _,
    scanPass_eq_insertNewlines _ _ _ _ h, ?_, ?_⟩
  · intro k hk
    rw [marksFrom_getD, decide_eq_true_eq, ← trackAt_eq_trackFrom, eligible_iff] at hk
    exact ⟨hk.1, hk.2.2.2.2⟩
  · intro k hc hs ha hn
    rw [marksFrom_getD, decide_eq_true_eq, ← trackAt_eq_trackFrom, eligible_iff]
    constructor
    · rintro ⟨_, h1, _⟩
      simpa using h1
    · intro hp
      exact ⟨hc, Or.inl hp, ha, hs, hn⟩

theorem commaFormat_paren_eligibility_witness :
    commaFormat ⟨true, 0⟩ (toUnits "a,(b,c)") = some ⟨none, some (toUnits "a,\n(b,c)")⟩ ∧
    ∃ marks : List Bool, marks.length = (toUnits "a,(b,c)").length ∧
      toUnits "a,\n(b,c)" = insertNewlines (toUnits "a,(b,c)") marks ∧
      (∀ k, marks.getD k false = true →
        (toUnits "a,(b,c)")[k]? = some 44 ∧ (toUnits "a,(b,c)")[k + 1]? ≠ some 10) ∧
      (∀ k, (toUnits "a,(b,c)")[k]? = some 44 → inStringAt (toUnits "a,(b,c)") k = none →
        arrayDepthAt (toUnits "a,(b,c)") k = 0 → (toUnits "a,(b,c)")[k + 1]? ≠ some 10 →
        (marks.getD k false = true ↔ parenDepthAt (toUnits "a,(b,c)") k < (0 : Int) + 1)) :=
  ⟨by decide, commaFormat_paren_eligibility _ _ 0 (by decide)⟩

theorem scanPass_error_iff (cfg : Config) (input : Str) :
    (scanPass cfg Track.init input).error.isSome = true ↔
      ((∃ k, prematureCloseAt input k) ∨ 0 < arrayDepthAt input input.length ∨
        0 < parenDepthAt input input.length) := by
  have hfin : (finish (trackAt input input.length)).error.isSome = true ↔
      (0 < arrayDepthAt input input.length ∨ 0 < parenDepthAt input input.length) := by
    rw [arrayDepthAt_eq, parenDepthAt_eq]
    simp only [finish]
    split_ifs with h1 h2
    · simp [h1]
    · simp [h2]
    · simp [h1, h2]
  by_cases hex : ∃ k, prematureCloseAt input k
  · simp only [hex, true_or, iff_true]
    classical
    have hk := Nat.find_spec hex
    have hmin : ∀ j, j < Nat.find hex → ¬ prematureFrom Track.init input j := by
      intro j hj hp
      exact Nat.find_min hex hj ((prematureCloseAt_iff input j).2 hp)
    obtain ⟨c, hc, hp⟩ := (prematureCloseAt_iff input _).1 hk
    rw [scanPass_first_premature cfg input Track.init _ c (le_refl _) (le_refl _) hmin hc hp]
    rfl
  · simp only [hex, false_or]
    have hno : ∀ j, j < input.length → ¬ prematureFrom Track.init input j := by
      intro j _ hp
      exact hex ⟨j, (prematureCloseAt_iff input j).2 hp⟩
    rw [scanPass_no_premature cfg input Track.init (le_refl _) (le_refl _) hno,
      ← trackAt_eq_trackFrom]
    exact hfin

/-- C5: `commaFormat` returns, and what it returns is either an error with a reason and
no code or a code with no error; it is the error form if and only if some closing
bracket is met outside a string while its own counter is zero, or the array depth or
the paren depth is positive at the end of the input. The counters do not depend on each
other, an unclosed string is no error, and `a,(b,c` gives the error form. -/
theorem commaFormat_error_iff :
    (∀ (cfg : Config) (input : Str), ∃ r, commaFormat cfg input = some r ∧
      ((∃ reason, r = ⟨some reason, none⟩) ∨ (∃ text, r = ⟨none, some text⟩)) ∧
      (r.error.isSome = true ↔
        ((∃ k, prematureCloseAt input k) ∨ 0 < arrayDepthAt input input.length ∨
          0 < parenDepthAt input input.length))) ∧
    (∃ reason, commaFormat defaultConfig (toUnits "a,(b,c") = some ⟨some reason, none⟩) ∧
    commaFormat defaultConfig (toUnits "([)]") = some ⟨none, some (toUnits "([)]")⟩ ∧
    commaFormat defaultConfig (toUnits "'a(,[") = some ⟨none, some (toUnits "'a(,[")⟩ := by
  refine ⟨?_, ⟨unbalancedParens, by decide⟩, by decide, by decide⟩
  intro cfg input
  exact ⟨scanPass cfg Track.init input, commaFormat_eq_scanPass cfg input,
    scanPass_shape cfg input Track.init, scanPass_error_iff cfg input⟩

/-- C6: the scan aborts at the first closing bracket met outside a string while its
counter is zero, with the reason of that bracket's kind, whatever follows; when no
closing bracket is premature the array reason is reported if the array depth is
positive at the end (also for `([`), and the parenthesis reason if the array depth is
zero and the paren depth positive. The two reasons differ. -/
theorem commaFormat_error_reason (cfg : Config) (input post : Str) (k c : Nat) :
    ((∀ j, j < k → ¬ prematureCloseAt input j) → prematureCloseAt input k →
      input[k]? = some c →
      commaFormat cfg (input.take (k + 1) ++ post) = some ⟨some (reasonOf c), none⟩) ∧
    ((∀ j, j < input.length → ¬ prematureCloseAt input j) →
      (0 < arrayDepthAt input input.length →
        commaFormat cfg input = some ⟨some unbalancedArray, none⟩) ∧
      (arrayDepthAt input input.length = 0 → 0 < parenDepthAt input input.length →
        commaFormat cfg input = some ⟨some unbalancedParens, none⟩)) ∧
    reasonOf 93 = unbalancedArray ∧ reasonOf 41 = unbalancedParens ∧
    unbalancedArray ≠ unbalancedParens ∧
    commaFormat cfg (toUnits "([") = some ⟨some unbalancedArray, none⟩ := by
  refine ⟨?_, ?_, rfl, rfl, by decide, ?_⟩
  · intro hbefore hk hc
    have hlt : k < input.length := by
      by_contra hge
      rw [List.getElem?_eq_none (by omega)] at hc
      simp at hc
    rw [commaFormat_eq_scanPass]
    obtain ⟨d, hd, hp⟩ := (prematureCloseAt_iff input k).1 hk
    rw [hc, Option.some.injEq] at hd
    subst hd
    have hp2 : prematureClose (trackFrom Track.init (input.take (k + 1) ++ post) k) c := by
      have : (input.take (k + 1) ++ post).take k = input.take k := by
        rw [List.take_append_of_le_length (by simp; omega), List.take_take]
        congr 1
        omega
      unfold trackFrom at hp ⊢
      rw [this]
      exact hp
    have hc2 : (input.take (k + 1) ++ post)[k]? = some c := by
      rw [List.getElem?_append_left (by simp; omega), List.getElem?_take_of_lt (by omega), hc]
    have hb2 : ∀ j, j < k → ¬ prematureFrom Track.init (input.take (k + 1) ++ post) j := by
      intro j hj hpj
      rw [prematureFrom_take_append _ _ _ _ _ hlt (by omega)] at hpj
      exact hbefore j hj ((prematureCloseAt_iff input j).2 hpj)
    rw [scanPass_first_premature cfg _ Track.init k c (le_refl _) (le_refl _) hb2 hc2 hp2]
  · intro hno
    have hno2 : ∀ j, j < input.length → ¬ prematureFrom Track.init input j := by
      intro j hj hp
      exact hno j hj ((prematureCloseAt_iff input j).2 hp)
    have herr := scanPass_no_premature cfg input Track.init (le_refl _) (le_refl _) hno2
    rw [← trackAt_eq_trackFrom] at herr
    rw [arrayDepthAt_eq, parenDepthAt_eq, commaFormat_eq_scanPass]
    constructor
    · intro ha
      rcases scanPass_shape cfg input Track.init with ⟨e, he⟩ | ⟨o, ho⟩
      · rw [he] at herr ⊢
        simp only [finish, if_pos ha] at herr
        rw [herr]
      · rw [ho] at herr
        simp [finish, if_pos ha] at herr
    · intro ha hp
      have ha2 : ¬ (trackAt input input.length).array > 0 := by omega
      rcases scanPass_shape cfg input Track.init with ⟨e, he⟩ | ⟨o, ho⟩
      · rw [he] at herr ⊢
        simp only [finish, if_neg ha2, if_pos hp] at herr
        rw [herr]
      · rw [ho] at herr
        simp [finish, if_neg ha2, if_pos hp] at herr
  · rw [commaFormat_eq_scanPass]
    rfl

theorem commaFormat_error_reason_witness :
    commaFormat defaultConfig (toUnits "a](") = some ⟨some unbalancedArray, none⟩ ∧
    commaFormat defaultConfig (toUnits "f(a,[b") = some ⟨some unbalancedArray, none⟩ ∧
    commaFormat defaultConfig (toUnits "f(a,b") = some ⟨some unbalancedParens, none⟩ :=
  ⟨(commaFormat_error_reason defaultConfig (toUnits "a]") (toUnits "(") 1 93).1
      (by decide) (by decide) (by decide),
    ((commaFormat_error_reason defaultConfig (toUnits "f(a,[b") [] 0 0).2.1
      (by decide)).1 (by decide),
    ((commaFormat_error_reason defaultConfig (toUnits "f(a,b") [] 0 0).2.1
      (by decide)).2 (by decide) (by decide)⟩

/-- C7 (the code departs from the rule): in a string opened by a double quote, a single
quote preceded by a backslash makes the single quote the key of the string, so that
the double quote that follows no longer closes it and the comma after it is taken to
be inside the string; under the rule of the specification the string is closed there. -/
theorem commaFormat_escaped_quote_rekeys :
    commaFormat defaultConfig (toUnits "\"\\'\",a") = some ⟨none, some (toUnits "\"\\'\",a")⟩ ∧
    inStringAt (toUnits "\"\\'\",a") 4 = some 39 ∧
    specInStringAt (toUnits "\"\\'\",a") 4 = none := by
  decide

/-! ## The packing loop -/

theorem foldl_packStep (str : Str) (l : List Nat) (acc : Str) :
    l.foldl (packStep str) acc =
      acc ++ l.map fun i => packUnit (charCodeAt str (i * 2)) (charCodeAt str (i * 2 + 1)) := by
  induction l generalizing acc with
  | nil => simp
  | cons x xs ih => simp [ih, packStep, packUnit]

theorem packPairs_eq_map (str : Str) :
    packPairs str = (List.range (str.length / 2)).map fun i =>
      packUnit (charCodeAt str (i * 2)) (charCodeAt str (i * 2 + 1)) := by
  simp [packPairs, foldl_packStep]

theorem packPairs_length (str : Str) : (packPairs str).length = str.length / 2 := by
  simp [packPairs_eq_map]

theorem packPairs_getElem? (str : Str) (i a b : Nat) (ha : str[2 * i]? = some a)
    (hb : str[2 * i + 1]? = some b) : (packPairs str)[i]? = some (packUnit a b) := by
  have hlt : 2 * i + 1 < str.length := by
    by_contra hge
    rw [List.getElem?_eq_none (by omega)] at hb
    simp at hb
  have hi : i < str.length / 2 := by omega
  rw [packPairs_eq_map, List.getElem?_map, List.getElem?_range hi]
  simp only [Option.map_some', charCodeAt, List.getD_eq_getElem?_getD, Nat.mul_comm i 2, ha, hb,
    Option.getD_some]

theorem packPairs_nil : packPairs [] = [] := rfl

theorem packPairs_singleton (a : Nat) : packPairs [a] = [] := by
  simp [packPairs]

theorem packPairs_cons_cons (a b : Nat) (rest : Str) :
    packPairs (a :: b :: rest) = packUnit a b :: packPairs rest := by
  have hlen : (a :: b :: rest).length / 2 = rest.length / 2 + 1 := by
    simp only [List.length_cons]; omega
  rw [packPairs_eq_map, packPairs_eq_map, hlen, List.range_succ_eq_map]
  simp [charCodeAt, Nat.succ_mul, Function.comp_def]

theorem packUnit_bytes (a b : Nat) (ha : a < 256) (hb : b < 256) :
    packUnit a b = a * 256 + b := by
  have h := Nat.mul_add_lt_is_or (show b < 2 ^ 8 by omega) a
  unfold packUnit fromCharCode
  rw [Nat.shiftLeft_eq, Nat.mul_comm a (2 ^ 8), ← h]
  omega

/-- C8: `minibakeCode(text)` is the head of the wrapper, a payload and the tail of the
wrapper; the payload has `floor(len(n) / 2)` code units, `n` being the normalized text,
and its `i`-th code unit is `((n[2i] << 8) | n[2i+1]) mod 2^16`; when both are below
256 the high byte is `n[2i]` and the low byte is `n[2i+1]`. -/
theorem minibakeCode_payload (text : Str) :
    ∃ payload : Str,
      minibakeCode text = toUnits "eval(unescape(escape`" ++ payload ++
        toUnits "`.replace(/u(..)/g,\"$1%\")))" ∧
      payload.length = (normalize text).length / 2 ∧
      ∀ i a b, (normalize text)[2 * i]? = some a → (normalize text)[2 * i + 1]? = some b →
        payload[i]? = some (((a <<< 8) ||| b) % 2 ^ 16) ∧
        (a < 256 → b < 256 →
          ((a <<< 8) ||| b) % 2 ^ 16 / 256 = a ∧ ((a <<< 8) ||| b) % 2 ^ 16 % 256 = b) := by
  refine ⟨packPairs (normalize text), rfl, packPairs_length _, ?_⟩
  intro i a b ha hb
  refine ⟨packPairs_getElem? _ i a b ha hb, ?_⟩
  intro ha2 hb2
  have h := packUnit_bytes a b ha2 hb2
  unfold packUnit fromCharCode at h
  rw [show (2 : Nat) ^ 16 = 65536 by norm_num, h]
  omega

/-! ## The regular expression of `unminibakeCode` -/

theorem trim_eq_self (s : Str) (a b : Nat) (hh : s.head? = some a) (hl : s.getLast? = some b)
    (ha : isWhiteSpace a = false) (hb : isWhiteSpace b = false) : trim s = s := by
  have h1 : ∀ (l : Str) (x : Nat), l.head? = some x → isWhiteSpace x = false →
      l.dropWhile isWhiteSpace = l := by
    intro l x hx hw
    cases l with
    | nil => rfl
    | cons y ys =>
      simp only [List.head?_cons, Option.some.injEq] at hx
      subst hx
      simp [List.dropWhile_cons, hw]
  unfold trim
  rw [h1 s a hh ha, h1 s.reverse b (by rw [List.head?_reverse]; exact hl) hb, List.reverse_reverse]

theorem stripLit_append (p r : Str) : stripLit p (p ++ r) = some r := by
  simp [stripLit]

theorem stripLit_eq_some {p s r : Str} (h : stripLit p s = some r) : s = p ++ r := by
  unfold stripLit at h
  split_ifs at h with hp
  rw [List.isPrefixOf_iff_prefix] at hp
  obtain ⟨t, rfl⟩ := hp
  simp only [List.drop_left, Option.some.injEq] at h
  rw [h]

theorem matchReplaceCall_iff (s : Str) :
    matchReplaceCall s = true ↔ ∃ d q1 q2, isLineTerminator d = false ∧ isQuote q1 = true ∧
      isQuote q2 = true ∧ s = d :: (litReplace ++ q1 :: (litDollar ++ q2 :: litParens)) := by
  constructor
  · intro h
    cases s with
    | nil => simp [matchReplaceCall] at h
    | cons d s1 =>
      simp only [matchReplaceCall, Bool.and_eq_true, Bool.not_eq_true'] at h
      obtain ⟨hd, h⟩ := h
      cases h1 : stripLit (toUnits "replace(/u(..)/g,") s1 with
      | none => rw [h1] at h; simp at h
      | some r1 =>
        rw [h1] at h
        cases r1 with
        | nil => simp at h
        | cons q1 s2 =>
          simp only [Bool.and_eq_true] at h
          obtain ⟨hq1, h⟩ := h
          cases h2 : stripLit (toUnits "$1%") s2 with
          | none => rw [h2] at h; simp at h
          | some r2 =>
            rw [h2] at h
            cases r2 with
            | nil => simp at h
            | cons q2 s3 =>
              simp only [Bool.and_eq_true, beq_iff_eq] at h
              obtain ⟨hq2, h3⟩ := h
              refine ⟨d, q1, q2, hd, hq1, hq2, ?_⟩
              rw [stripLit_eq_some h1, stripLit_eq_some h2, h3]
              rfl
  · rintro ⟨d, q1, q2, hd, hq1, hq2, rfl⟩
    have e1 : stripLit (toUnits "replace(/u(..)/g,")
        (litReplace ++ q1 :: (litDollar ++ q2 :: litParens)) =
        some (q1 :: (litDollar ++ q2 :: litParens)) := stripLit_append _ _
    have e2 : stripLit (toUnits "$1%") (litDollar ++ q2 :: litParens) = some (q2 :: litParens) :=
      stripLit_append _ _
    simp only [matchReplaceCall, hd, e1, e2, hq1, hq2]
    rfl

theorem matchReplaceCall_length {s : Str} (h : matchReplaceCall s = true) : s.length = 26 := by
  obtain ⟨d, q1, q2, _, _, _, rfl⟩ := (matchReplaceCall_iff s).1 h
  simp [litReplace, litDollar, litParens, toUnits]

theorem matchClose_iff (s : Str) :
    matchClose s = true ↔ ∃ c ∈ closeAlts, ∃ r, s = c ++ r ∧ matchReplaceCall r = true := by
  unfold matchClose
  rw [List.any_eq_true]
  constructor
  · rintro ⟨c, hc, h⟩
    cases h1 : stripLit c s with
    | none => rw [h1] at h; simp at h
    | some r =>
      rw [h1] at h
      exact ⟨c, hc, r, stripLit_eq_some h1, h⟩
  · rintro ⟨c, hc, r, rfl, hr⟩
    exact ⟨c, hc, by rw [stripLit_append]; exact hr⟩

theorem matchClose_length {s : Str} (h : matchClose s = true) :
    (s.length = 27 ∧ s[0]? = some 96) ∨ (s.length = 28 ∧ s[1]? = some 41) := by
  obtain ⟨c, hc, r, rfl, hr⟩ := (matchClose_iff s).1 h
  have hlen := matchReplaceCall_length hr
  simp only [closeAlts, List.mem_cons, List.mem_singleton, List.not_mem_nil, or_false] at hc
  rcases hc with rfl | rfl | rfl | rfl
  · left; simp [hlen]
  · right; simp [hlen]
  · right; simp [hlen]
  · right; simp [hlen]

/-- After the payload no shorter capture lets the rest of the expression match. -/
theorem matchClose_early (x : Nat) (p2 c r : Str) (hc : c ∈ closeAlts)
    (hr : matchReplaceCall r = true) : matchClose (x :: p2 ++ (c ++ r)) = false := by
  have hlen := matchReplaceCall_length hr
  cases h : matchClose (x :: p2 ++ (c ++ r)) with
  | false => rfl
  | true =>
    exfalso
    have hl := matchClose_length h
    simp only [closeAlts, List.mem_cons, List.mem_singleton, List.not_mem_nil, or_false] at hc
    simp only [List.cons_append, List.length_cons, List.length_append, hlen] at hl
    rcases hl with ⟨h1, _⟩ | ⟨h1, h2⟩
    · rcases hc with rfl | rfl | rfl | rfl <;>
        simp only [List.length_cons, List.length_nil] at h1 <;> omega
    · have hp2 : p2 = [] := by
        apply List.eq_nil_of_length_eq_zero
        rcases hc with rfl | rfl | rfl | rfl <;>
          simp only [List.length_cons, List.length_nil] at h1 <;> omega
      subst hp2
      rcases hc with rfl | rfl | rfl | rfl
      · simp at h2
      · simp only [List.length_cons, List.length_nil] at h1; omega
      · simp only [List.length_cons, List.length_nil] at h1; omega
      · simp only [List.length_cons, List.length_nil] at h1; omega

theorem lazyCapture_complete (s : Str) (hs : matchClose s = true) :
    ∀ (p acc : Str), (∀ x ∈ p, isLineTerminator x = false) →
      (∀ p1 x p2, p = p1 ++ x :: p2 → matchClose (x :: p2 ++ s) = false) →
      lazyCapture acc (p ++ s) = some (acc ++ p) := by
  intro p
  induction p with
  | nil =>
    intro acc _ _
    cases s with
    | nil => simp [lazyCapture, hs]
    | cons c cs => simp [lazyCapture, hs]
  | cons x p ih =>
    intro acc hlt hearly
    have h1 : matchClose (x :: p ++ s) = false := hearly [] x p rfl
    have h2 : isLineTerminator x = false := hlt x (by simp)
    have h3 := ih (acc ++ [x]) (fun y hy => hlt y (by simp [hy]))
      (fun p1 y p2 hp => hearly (x :: p1) y p2 (by rw [hp]; rfl))
    simp only [List.cons_append] at h1 ⊢
    rw [lazyCapture, h1, h2, h3]
    simp

theorem lazyCapture_sound :
    ∀ (s acc p : Str), lazyCapture acc s = some p →
      ∃ p2 s2, p = acc ++ p2 ∧ s = p2 ++ s2 ∧ (∀ x ∈ p2, isLineTerminator x = false) ∧
        matchClose s2 = true := by
  intro s
  induction s with
  | nil =>
    intro acc p h
    simp only [lazyCapture] at h
    split_ifs at h with hm
    simp only [Option.some.injEq] at h
    exact ⟨[], [], by simp [h], rfl, by simp, hm⟩
  | cons c cs ih =>
    intro acc p h
    rw [lazyCapture] at h
    split_ifs at h with hm hl
    · simp only [Option.some.injEq] at h
      exact ⟨[], c :: cs, by simp [h], rfl, by simp, hm⟩
    · obtain ⟨p2, s2, hp, hs, hlt, hm2⟩ := ih _ _ h
      refine ⟨c :: p2, s2, by simp [hp], by simp [hs], ?_, hm2⟩
      intro x hx
      rcases List.mem_cons.1 hx with rfl | hx
      · simpa using hl
      · exact hlt x hx

theorem matchWrapper_of_wrapperMatch {t p : Str} (h : WrapperMatch t p) :
    matchWrapper t = some p := by
  obtain ⟨o, ho, c, hc, d, q1, q2, hp, hd, hq1, hq2, rfl⟩ := h
  have hr : matchReplaceCall (d :: (litReplace ++ q1 :: (litDollar ++ q2 :: litParens))) = true :=
    (matchReplaceCall_iff _).2 ⟨d, q1, q2, hd, hq1, hq2, rfl⟩
  have hclose : matchClose (c ++ d :: (litReplace ++ q1 :: (litDollar ++ q2 :: litParens))) =
      true := (matchClose_iff _).2 ⟨c, hc, _, rfl, hr⟩
  have hcap := lazyCapture_complete _ hclose p [] hp
    (fun p1 x p2 _ => matchClose_early x p2 c _ hc hr)
  have hpre : stripLit (toUnits "eval(unescape(escape")
      (wrapperText o c d q1 q2 p) = some (o ++ (p ++ (c ++ d :: (litReplace ++ q1 ::
        (litDollar ++ q2 :: litParens))))) := stripLit_append _ _
  simp only [List.nil_append] at hcap
  unfold matchWrapper
  rw [hpre]
  simp only [openAlts, List.mem_cons, List.mem_singleton, List.not_mem_nil, or_false] at ho
  rcases ho with rfl | rfl | rfl | rfl
  · simp [openAlts, List.findSome?_cons, stripLit, hcap]
  · simp [openAlts, List.findSome?_cons, stripLit, hcap]
  · simp [openAlts, List.findSome?_cons, stripLit, hcap]
  · simp [openAlts, List.findSome?_cons, stripLit, hcap]

theorem wrapperMatch_of_matchWrapper {t p : Str} (h : matchWrapper t = some p) :
    WrapperMatch t p := by
  unfold matchWrapper at h
  cases h1 : stripLit (toUnits "eval(unescape(escape") t with
  | none => rw [h1] at h; simp at h
  | some r =>
    rw [h1] at h
    simp only [] at h
    obtain ⟨o, ho, h2⟩ := List.exists_of_findSome?_eq_some h
    cases h3 : stripLit o r with
    | none => rw [h3] at h2; simp at h2
    | some r2 =>
      rw [h3] at h2
      simp only [Option.some_bind] at h2
      obtain ⟨p2, s2, hp, hs, hlt, hm⟩ := lazyCapture_sound _ _ _ h2
      obtain ⟨c, hc, r3, hr3, hrc⟩ := (matchClose_iff s2).1 hm
      obtain ⟨d, q1, q2, hd, hq1, hq2, hr4⟩ := (matchReplaceCall_iff r3).1 hrc
      simp only [List.nil_append] at hp
      subst hp
      refine ⟨o, ho, c, hc, d, q1, q2, hlt, hd, hq1, hq2, ?_⟩
      rw [stripLit_eq_some h1, stripLit_eq_some h3, hs, hr3, hr4]
      rfl

/-- The regular expression of `unminibakeCode` matches `t` with capture `p` exactly when
`t` is a wrapper text with payload `p`. -/
theorem matchWrapper_iff (t p : Str) : matchWrapper t = some p ↔ WrapperMatch t p :=
  ⟨wrapperMatch_of_matchWrapper, matchWrapper_of_wrapperMatch⟩

theorem trim_wrapperText (o c : Str) (d q1 q2 : Nat) (p : Str) :
    trim (wrapperText o c d q1 q2 p) = wrapperText o c d q1 q2 p := by
  apply trim_eq_self _ 101 41
  · simp [wrapperText, litEval, toUnits]
  · have h : wrapperText o c d q1 q2 p = (litEval ++ (o ++ (p ++ (c ++ d :: (litReplace ++
        q1 :: (litDollar ++ [q2, 41, 41])))))) ++ [41] := by
      simp [wrapperText, litParens, toUnits]
    rw [h, List.getLast?_concat]
  · decide
  · decide

theorem minibake_wrapper_eq (p : Str) :
    wrapperHead ++ p ++ wrapperTail = wrapperText [96] [96] 46 34 34 p := by
  have h1 : wrapperHead = litEval ++ [96] := by decide
  have h2 : wrapperTail = [96] ++ 46 :: (litReplace ++ 34 :: (litDollar ++ 34 :: litParens)) := by
    decide
  rw [h1, h2]
  simp [wrapperText]

theorem unminibakeCode_wrapperText (o c : Str) (d q1 q2 : Nat) (p : Str)
    (h : WrapperMatch (wrapperText o c d q1 q2 p) p) :
    unminibakeCode (wrapperText o c d q1 q2 p) = unescape (replaceU (escape p)) := by
  unfold unminibakeCode
  rw [trim_wrapperText, matchWrapper_of_wrapperMatch h]

/-! ## The claims about `unminibakeCode` -/

theorem reverse_getElem?_tail (front tail : Str) (x : Nat) :
    (front ++ x :: tail).reverse[tail.length]? = some x := by
  rw [List.reverse_append, List.reverse_cons,
    List.getElem?_append_left (by simp), List.getElem?_append_right (by simp)]
  simp

/-- In a text of the wrapper grammar the code unit before `replace` is a dot, and the
payload is either between two backticks or opened after `(` and closed before `)`. -/
theorem wrapperGrammar_shape {t : Str} (h : WrapperGrammar t) :
    t.reverse[25]? = some 46 ∧
      ((t[20]? = some 96 ∧ t.reverse[26]? = some 96) ∨
       (t[20]? = some 40 ∧ t.reverse[26]? = some 41)) := by
  obtain ⟨oc, hoc, p, q1, q2, _, _, rfl⟩ := h
  have hT : (litReplace ++ q1 :: (litDollar ++ q2 :: litParens)).length = 25 := by
    simp [litReplace, litDollar, litParens, toUnits]
  have hT2 : (46 :: (litReplace ++ q1 :: (litDollar ++ q2 :: litParens))).length = 26 := by
    rw [List.length_cons, hT]
  have hE : litEval.length = 20 := by decide
  have hdot : ∀ o c : Str, (wrapperText o c 46 q1 q2 p).reverse[25]? = some 46 := by
    intro o c
    have := reverse_getElem?_tail (litEval ++ (o ++ (p ++ c))) (litReplace ++ q1 ::
      (litDollar ++ q2 :: litParens)) 46
    rw [hT] at this
    simpa [wrapperText] using this
  have hlast : ∀ (o c : Str) (y : Nat),
      (wrapperText o (c ++ [y]) 46 q1 q2 p).reverse[26]? = some y := by
    intro o c y
    have := reverse_getElem?_tail (litEval ++ (o ++ (p ++ c))) (46 :: (litReplace ++ q1 ::
      (litDollar ++ q2 :: litParens))) y
    rw [hT2] at this
    simpa [wrapperText] using this
  have hfirst : ∀ (o c : Str) (y : Nat),
      (wrapperText (y :: o) c 46 q1 q2 p)[20]? = some y := by
    intro o c y
    unfold wrapperText
    rw [List.getElem?_append_right (by omega), hE]
    simp
  refine ⟨hdot _ _, ?_⟩
  simp only [delimiterPairs, List.mem_cons, List.mem_singleton, List.not_mem_nil,
    or_false] at hoc
  rcases hoc with rfl | rfl | rfl | rfl
  · exact Or.inl ⟨hfirst [] _ 96, hlast _ [] 96⟩
  · exact Or.inr ⟨hfirst _ _ 40, hlast _ [39] 41⟩
  · exact Or.inr ⟨hfirst _ _ 40, hlast _ [34] 41⟩
  · exact Or.inr ⟨hfirst _ _ 40, hlast _ [96] 41⟩

/-- C9 (as stated it fails): a text with `X` in the place of the dot before `replace`,
and a text whose payload is opened by a backtick and closed by `')`, are trimmed texts
outside the wrapper grammar, yet `unminibakeCode` decodes both to `ab` instead of giving
them back. -/
theorem unminibakeCode_no_match_counterexample :
    (¬ WrapperGrammar (trim (toUnits "eval(unescape(escape`ab`Xreplace(/u(..)/g,\"$1%\")))")) ∧
      unminibakeCode (toUnits "eval(unescape(escape`ab`Xreplace(/u(..)/g,\"$1%\")))") =
        toUnits "ab" ∧
      unminibakeCode (toUnits "eval(unescape(escape`ab`Xreplace(/u(..)/g,\"$1%\")))") ≠
        trim (toUnits "eval(unescape(escape`ab`Xreplace(/u(..)/g,\"$1%\")))")) ∧
    (¬ WrapperGrammar (trim (toUnits "eval(unescape(escape`ab').replace(/u(..)/g,\"$1%\")))")) ∧
      unminibakeCode (toUnits "eval(unescape(escape`ab').replace(/u(..)/g,\"$1%\")))") =
        toUnits "ab" ∧
      unminibakeCode (toUnits "eval(unescape(escape`ab').replace(/u(..)/g,\"$1%\")))") ≠
        trim (toUnits "eval(unescape(escape`ab').replace(/u(..)/g,\"$1%\")))")) := by
  refine ⟨⟨?_, by decide, by decide⟩, ⟨?_, by decide, by decide⟩⟩
  · intro h
    have hs := (wrapperGrammar_shape h).1
    revert hs
    decide
  · intro h
    have hs := (wrapperGrammar_shape h).2
    revert hs
    decide

/-- C9 (amended): when the trimmed text is not a wrapper text in the wider sense of the
regular expression of the source (the opening and the closing delimiter need not be of
the same variant, the payload holds no line terminator, and any one code unit but a line
terminator stands where the dot before `replace` is), that expression does not match and
`unminibakeCode(x)` is `x.trim()`: the text comes back unchanged apart from leading and
trailing white space, as a value. -/
theorem unminibakeCode_no_match (x : Str) (h : ¬ ∃ p, WrapperMatch (trim x) p) :
    matchWrapper (trim x) = none ∧ unminibakeCode x = trim x := by
  have hm : matchWrapper (trim x) = none := by
    cases hc : matchWrapper (trim x) with
    | none => rfl
    | some p => exact absurd ⟨p, wrapperMatch_of_matchWrapper hc⟩ h
  exact ⟨hm, by rw [unminibakeCode, hm]⟩

theorem unminibakeCode_no_match_witness :
    unminibakeCode (toUnits " \n t*(t>>8),t&3 \t") = toUnits "t*(t>>8),t&3" :=
  (unminibakeCode_no_match (toUnits " \n t*(t>>8),t&3 \t") (fun ⟨p, hp⟩ => by
    have hm := matchWrapper_of_wrapperMatch hp
    rw [show matchWrapper (trim (toUnits " \n t*(t>>8),t&3 \t")) = none by decide] at hm
    cases hm)).2

/-- C10: for a payload `p` without line terminators, the wrappers that delimit `p` by
backticks, by `('` and `')`, by `("` and `")` or by a parenthesised pair of backticks,
with any quote characters around `$1%`, are all matched with capture exactly `p`, and
decode to `unescape(escape(p).replace(/u(..)/g,'$1%'))`, the same text as the backtick
form `minibakeCode` emits. -/
theorem unminibakeCode_quoting_variants (p : Str) (hp : ∀ x ∈ p, isLineTerminator x = false)
    (o c : Str)
    (hoc : (o, c) ∈ [([96], [96]), ([40, 39], [39, 41]), ([40, 34], [34, 41]),
      ([40, 96], [96, 41])])
    (q1 q2 : Nat) (hq1 : isQuote q1 = true) (hq2 : isQuote q2 = true) :
    matchWrapper (trim (wrapperText o c 46 q1 q2 p)) = some p ∧
    unminibakeCode (wrapperText o c 46 q1 q2 p) = unescape (replaceU (escape p)) ∧
    unminibakeCode (wrapperText o c 46 q1 q2 p) =
      unminibakeCode (wrapperHead ++ p ++ wrapperTail) := by
  have ho : o ∈ openAlts := by
    simp only [List.mem_cons, Prod.mk.injEq, List.mem_singleton, List.not_mem_nil,
      or_false] at hoc
    rcases hoc with ⟨rfl, _⟩ | ⟨rfl, _⟩ | ⟨rfl, _⟩ | ⟨rfl, _⟩ <;> simp [openAlts]
  have hc : c ∈ closeAlts := by
    simp only [List.mem_cons, Prod.mk.injEq, List.mem_singleton, List.not_mem_nil,
      or_false] at hoc
    rcases hoc with ⟨_, rfl⟩ | ⟨_, rfl⟩ | ⟨_, rfl⟩ | ⟨_, rfl⟩ <;> simp [closeAlts]
  have hw : WrapperMatch (wrapperText o c 46 q1 q2 p) p :=
    ⟨o, ho, c, hc, 46, q1, q2, hp, by decide, hq1, hq2, rfl⟩
  have hb : WrapperMatch (wrapperText [96] [96] 46 34 34 p) p :=
    ⟨[96], by decide, [96], by decide, 46, 34, 34, hp, by decide, by decide, by decide, rfl⟩
  refine ⟨?_, unminibakeCode_wrapperText _ _ _ _ _ _ hw, ?_⟩
  · rw [trim_wrapperText, matchWrapper_of_wrapperMatch hw]
  · rw [minibake_wrapper_eq, unminibakeCode_wrapperText _ _ _ _ _ _ hw,
      unminibakeCode_wrapperText _ _ _ _ _ _ hb]

theorem unminibakeCode_quoting_variants_witness :
    unminibakeCode (toUnits "eval(unescape(escape('慢Ᵽ').replace(/u(..)/g,'$1%`)))") =
      toUnits "ab,c" :=
  ((unminibakeCode_quoting_variants [24930, 11363] (by decide) [40, 39] [39, 41] (by decide)
    39 96 (by decide) (by decide)).2.1).trans (by decide)

/-! ## Decoding a packed payload -/

theorem pairs_induction {P : Str → Prop} (h0 : P []) (h1 : ∀ a, P [a])
    (h2 : ∀ a b rest, P rest → P (a :: b :: rest)) : ∀ l, P l := by
  have key : ∀ l : Str, P l ∧ ∀ x, P (x :: l) := by
    intro l
    induction l with
    | nil => exact ⟨h0, h1⟩
    | cons y ys ih => exact ⟨ih.2 y, fun x => h2 x y ys ih.1⟩
  exact fun l => (key l).1

theorem hexDigit_props : ∀ d, d < 16 →
    (isHexDigit (hexDigit d) = true ∧ hexVal (hexDigit d) = d ∧ hexDigit d ≠ 117 ∧
      isLineTerminator (hexDigit d) = false) := by
  decide

theorem isUnescaped_lt {c : Nat} (h : isUnescaped c = true) : c < 123 := by
  simp only [isUnescaped, Bool.or_eq_true, Bool.and_eq_true, decide_eq_true_eq,
    beq_iff_eq] at h
  omega

theorem escapeUnit_packUnit (a b : Nat) (ha1 : 1 ≤ a) (ha : a < 256) (hb : b < 256) :
    escapeUnit (packUnit a b) =
      [37, 117, hexDigit (a / 16), hexDigit (a % 16), hexDigit (b / 16), hexDigit (b % 16)] := by
  rw [packUnit_bytes a b ha hb]
  have h1 : isUnescaped (a * 256 + b) = false := by
    cases h : isUnescaped (a * 256 + b) with
    | false => rfl
    | true => have := isUnescaped_lt h; omega
  have h2 : ¬ a * 256 + b < 256 := by omega
  have e1 : (a * 256 + b) / 4096 % 16 = a / 16 := by omega
  have e2 : (a * 256 + b) / 256 % 16 = a % 16 := by omega
  have e3 : (a * 256 + b) / 16 % 16 = b / 16 := by omega
  have e4 : (a * 256 + b) % 16 = b % 16 := by omega
  simp only [escapeUnit, h1, h2, e1, e2, e3, e4, if_false, Bool.false_eq_true]

theorem escape_cons (c : Nat) (l : Str) : escape (c :: l) = escapeUnit c ++ escape l := by
  simp [escape]

theorem replaceU_cons_ne (c : Nat) (l : Str) (h : c ≠ 117) :
    replaceU (c :: l) = c :: replaceU l := by
  rcases l with _ | ⟨a, _ | ⟨b, r⟩⟩ <;> simp [replaceU, h]

theorem replaceU_u (a b : Nat) (l : Str) (ha : isLineTerminator a = false)
    (hb : isLineTerminator b = false) :
    replaceU (117 :: a :: b :: l) = a :: b :: 37 :: replaceU l := by
  simp [replaceU, ha, hb]

theorem unescapeAux_percent (d1 d2 : Nat) (h1 : d1 < 16) (h2 : d2 < 16) (l : Str) :
    unescapeAux 0 (37 :: hexDigit d1 :: hexDigit d2 :: l) =
      (d1 * 16 + d2) :: unescapeAux 0 l := by
  obtain ⟨x1, x2, x3, _⟩ := hexDigit_props d1 h1
  obtain ⟨y1, y2, _, _⟩ := hexDigit_props d2 h2
  rw [unescapeAux]
  simp [x1, x2, x3, y1, y2, unescapeAux]

theorem decode_packPairs : ∀ n : Str, Packable n →
    unescape (replaceU (escape (packPairs n))) = n := by
  apply pairs_induction
  · intro _; rfl
  · intro a h; exact absurd h (by simp [Packable])
  · intro a b rest ih h
    obtain ⟨⟨ha1, ha, hb, _⟩, hrest⟩ := h
    have ih2 := ih hrest
    unfold unescape at ih2 ⊢
    obtain ⟨_, _, p3, p4⟩ := hexDigit_props (a / 16) (by omega)
    obtain ⟨_, _, q3, q4⟩ := hexDigit_props (a % 16) (by omega)
    obtain ⟨_, _, r3, _⟩ := hexDigit_props (b / 16) (by omega)
    obtain ⟨_, _, s3, _⟩ := hexDigit_props (b % 16) (by omega)
    rw [packPairs_cons_cons, escape_cons, escapeUnit_packUnit a b ha1 ha hb]
    simp only [List.cons_append, List.nil_append]
    rw [replaceU_cons_ne 37 _ (by decide), replaceU_u _ _ _ p4 q4, replaceU_cons_ne _ _ r3,
      replaceU_cons_ne _ _ s3, unescapeAux_percent _ _ (by omega) (by omega),
      unescapeAux_percent _ _ (by omega) (by omega), ih2]
    congr 1
    · omega
    · congr 1
      omega

theorem packPairs_no_lineTerminator : ∀ n : Str, Packable n →
    ∀ x ∈ packPairs n, isLineTerminator x = false := by
  apply pairs_induction
  · intro _ x hx; simp [packPairs_nil] at hx
  · intro a h; exact absurd h (by simp [Packable])
  · intro a b rest ih h x hx
    obtain ⟨⟨ha1, ha, hb, hpair⟩, hrest⟩ := h
    rw [packPairs_cons_cons, List.mem_cons] at hx
    rcases hx with rfl | hx
    · rw [packUnit_bytes a b ha hb]
      simp only [isLineTerminator, Bool.or_eq_false_iff, beq_eq_false_iff_ne, ne_eq]
      refine ⟨⟨⟨?_, ?_⟩, ?_⟩, ?_⟩ <;> omega
    · exact ih hrest x hx

/-- The packer gives back every packable text put directly in the wrapper. -/
theorem unminibakeCode_packPairs (n : Str) (h : Packable n) :
    unminibakeCode (wrapperHead ++ packPairs n ++ wrapperTail) = n := by
  have hw : WrapperMatch (wrapperText [96] [96] 46 34 34 (packPairs n)) (packPairs n) :=
    ⟨[96], by decide, [96], by decide, 46, 34, 34, packPairs_no_lineTerminator n h, by decide,
      by decide, by decide, rfl⟩
  rw [minibake_wrapper_eq, unminibakeCode_wrapperText _ _ _ _ _ _ hw, decode_packPairs n h]

theorem packable_of_index : ∀ n : Str, n.length % 2 = 0 → (∀ c ∈ n, c < 256) →
    NoNulAtEven n → NoTerminatorPair n → Packable n := by
  apply pairs_induction
  · intro _ _ _ _; trivial
  · intro a h; simp at h
  · intro a b rest ih hlen hbyte hnul hpair
    refine ⟨⟨?_, hbyte a (by simp), hbyte b (by simp), ?_⟩, ?_⟩
    · have := hnul 0 (by simp) rfl
      simp only [List.getElem?_cons_zero, ne_eq, Option.some.injEq] at this
      omega
    · rintro ⟨rfl, hb⟩
      have := hpair 0 (by simp) rfl rfl
      simp only [zero_add, List.getElem?_cons_succ, List.getElem?_cons_zero, ne_eq,
        Option.some.injEq] at this
      omega
    · apply ih
      · simp only [List.length_cons] at hlen; omega
      · intro c hc; exact hbyte c (by simp [hc])
      · intro i hi he
        have := hnul (i + 2) (by simp only [List.length_cons]; omega) (by omega)
        simpa using this
      · intro i hi he h32
        have := hpair (i + 2) (by simp only [List.length_cons]; omega) (by omega)
          (by simpa using h32)
        simpa using this

theorem collapseCommaSpace_eq_self : ∀ x : Str, ¬ [44, 32] <:+: x →
    collapseCommaSpace x = x := by
  intro x
  induction x with
  | nil => intro _; rfl
  | cons c rest ih =>
    intro h
    have hrest : ¬ [44, 32] <:+: rest := fun hr => h (List.infix_cons hr)
    cases rest with
    | nil => rfl
    | cons d rest2 =>
      have hne : ¬ (c = 44 ∧ d = 32) := by
        rintro ⟨rfl, rfl⟩
        exact h (List.IsPrefix.isInfix ⟨rest2, rfl⟩)
      rw [collapseCommaSpace, if_neg hne, ih hrest]

theorem minibakeCode_eq (x : Str) :
    minibakeCode x = wrapperHead ++ packPairs (normalize x) ++ wrapperTail := rfl

/-! ## The claims about the round trip -/

/-- C1 (as stated it fails): for the ASCII text of a space and `(`, of even length and
without a comma followed by a space, the packed unit is U+2028, the wrapper is not
matched and comes back unchanged; for the ASCII text of NUL and `A` the decoded text is
`A` alone. -/
theorem roundtrip_ascii_counterexample :
    ((∀ c ∈ toUnits " (", c < 128) ∧ (toUnits " (").length % 2 = 0 ∧
      ¬ [44, 32] <:+: toUnits " (" ∧
      unminibakeCode (minibakeCode (toUnits " (")) = minibakeCode (toUnits " (") ∧
      unminibakeCode (minibakeCode (toUnits " (")) ≠ toUnits " (") ∧
    ((∀ c ∈ [0, 65], c < 128) ∧ ([0, 65] : Str).length % 2 = 0 ∧
      ¬ [44, 32] <:+: ([0, 65] : Str) ∧
      unminibakeCode (minibakeCode [0, 65]) = [65] ∧
      unminibakeCode (minibakeCode [0, 65]) ≠ [0, 65]) := by
  decide

/-- C1 (amended): for every ASCII text `x` of even length without a comma followed by a
space, with no NUL at an even index and no pair `(x[2i], x[2i+1])` that is a space
followed by `(` or `)`, `unminibakeCode(minibakeCode(x))` is `x`. -/
theorem roundtrip_ascii (x : Str) (hascii : ∀ c ∈ x, c < 128) (heven : x.length % 2 = 0)
    (hcs : ¬ [44, 32] <:+: x) (hnul : NoNulAtEven x) (hpair : NoTerminatorPair x) :
    unminibakeCode (minibakeCode x) = x := by
  have hn : normalize x = x := by
    have : ¬ x.length % 2 = 1 := by omega
    rw [normalize, if_neg this, collapseCommaSpace_eq_self x hcs]
  have hp : Packable x :=
    packable_of_index x heven (fun c hc => by have := hascii c hc; omega) hnul hpair
  rw [minibakeCode_eq, hn, unminibakeCode_packPairs x hp]

theorem roundtrip_ascii_witness :
    unminibakeCode (minibakeCode (toUnits "t*(t>>8),t&255")) = toUnits "t*(t>>8),t&255" :=
  roundtrip_ascii (toUnits "t*(t>>8),t&255") (by decide) (by decide) (by decide) (by decide)
    (by decide)

/-- C2 (as stated it fails): `a, b` is padded to nothing (its length is even), collapsed
to the three characters `a,b`, of which only the pair `a,` is packed, so `a,` comes
back; and a code unit above 255 comes back without its high byte. -/
theorem roundtrip_normalize_counterexample :
    (normalize (toUnits "a, b") = toUnits "a,b" ∧
      unminibakeCode (minibakeCode (toUnits "a, b")) = toUnits "a," ∧
      unminibakeCode (minibakeCode (toUnits "a, b")) ≠ normalize (toUnits "a, b")) ∧
    (normalize [321, 66] = [321, 66] ∧
      unminibakeCode (minibakeCode [321, 66]) = [65, 66] ∧
      unminibakeCode (minibakeCode [321, 66]) ≠ normalize [321, 66]) := by
  decide

/-- C2 (amended): for every text `x` whose normalized form `n` has even length, holds
only code units below 256, none of them zero at an even index, and has no pair
`(n[2i], n[2i+1])` that is a space followed by `(` or `)`,
`unminibakeCode(minibakeCode(x))` is `n`. -/
theorem roundtrip_normalize (x : Str) (heven : (normalize x).length % 2 = 0)
    (hbyte : ∀ c ∈ normalize x, c < 256) (hnul : NoNulAtEven (normalize x))
    (hpair : NoTerminatorPair (normalize x)) :
    unminibakeCode (minibakeCode x) = normalize x := by
  rw [minibakeCode_eq, unminibakeCode_packPairs _ (packable_of_index _ heven hbyte hnul hpair)]

theorem roundtrip_normalize_witness :
    normalize (toUnits "sin(t), t>>4, 1") = toUnits "sin(t),t>>4,1 " ∧
    unminibakeCode (minibakeCode (toUnits "sin(t), t>>4, 1")) = toUnits "sin(t),t>>4,1 " :=
  ⟨by decide, roundtrip_normalize (toUnits "sin(t), t>>4, 1") (by decide) (by decide)
    (by decide) (by decide)⟩

/-! ## Further claims about `commaFormat` -/

/-- On success the code is the input with a newline after each marked character, and a
character is marked exactly when it is a comma that passes the test of the source. -/
theorem commaFormat_marks (cfg : Config) (input out : Str)
    (h : commaFormat cfg input = some ⟨none, some out⟩) :
    ∃ marks : List Bool, marks.length = input.length ∧ out = insertNewlines input marks ∧
      ∀ k, (marks.getD k false = true ↔
        (input[k]? = some 44 ∧
          (parenDepthAt input k < cfg.MaxParenLayersAllowed + 1 ∨ cfg.considerParens = false) ∧
          arrayDepthAt input k = 0 ∧ inStringAt input k = none ∧ input[k + 1]? ≠ some 10)) := by
  rw [commaFormat_eq_scanPass] at h
  simp only [Option.some.injEq] at h
  refine ⟨marksFrom cfg Track.init input, marksFrom_length _ _ _,
    scanPass_eq_insertNewlines _ _ _ _ h, ?_⟩
  intro k
  rw [marksFrom_getD, decide_eq_true_eq, ← trackAt_eq_trackFrom, eligible_iff]

theorem insertNewlines_unmarked : ∀ (input : Str) (marks : List Bool),
    (∀ k, k < input.length → marks.getD k false = false) → insertNewlines input marks = input := by
  intro input
  induction input with
  | nil => intro marks _; rfl
  | cons c rest ih =>
    intro marks h
    cases marks with
    | nil => rw [insertNewlines, ih [] (fun k _ => by simp)]
    | cons m ms =>
      have h0 : m = false := by simpa using h 0 (by simp)
      have hrest : ∀ k, k < rest.length → ms.getD k false = false := by
        intro k hk
        have := h (k + 1) (by simp only [List.length_cons]; omega)
        simpa using this
      subst h0
      simp [insertNewlines, ih ms hrest]

theorem scanPass_ok_of_balanced (cfg : Config) (input : Str)
    (hno : ∀ k, k < input.length → ¬ prematureCloseAt input k)
    (ha : arrayDepthAt input input.length = 0) (hp : parenDepthAt input input.length = 0) :
    ∃ out, scanPass cfg Track.init input = ⟨none, some out⟩ := by
  have hno2 : ∀ j, j < input.length → ¬ prematureFrom Track.init input j := by
    intro j hj h
    exact hno j hj ((prematureCloseAt_iff input j).2 h)
  have herr := scanPass_no_premature cfg input Track.init (le_refl _) (le_refl _) hno2
  rw [← trackAt_eq_trackFrom] at herr
  rw [arrayDepthAt_eq] at ha
  rw [parenDepthAt_eq] at hp
  have hfin : (finish (trackAt input input.length)).error = none := by
    simp [finish, ha, hp]
  rw [hfin] at herr
  rcases scanPass_shape cfg input Track.init with ⟨e, he⟩ | ⟨o, ho⟩
  · rw [he] at herr; simp at herr
  · exact ⟨o, ho⟩

theorem commaFormat_unchanged (cfg : Config) (input : Str)
    (hcomma : ∀ k, k < input.length → input[k]? = some 44 → input[k + 1]? = some 10)
    (hno : ∀ k, k < input.length → ¬ prematureCloseAt input k)
    (ha : arrayDepthAt input input.length = 0) (hp : parenDepthAt input input.length = 0) :
    commaFormat cfg input = some ⟨none, some input⟩ := by
  obtain ⟨out, hout⟩ := scanPass_ok_of_balanced cfg input hno ha hp
  have hc : commaFormat cfg input = some ⟨none, some out⟩ := by
    rw [commaFormat_eq_scanPass, hout]
  obtain ⟨marks, _, hins, hm⟩ := commaFormat_marks cfg input out hc
  have hun : ∀ k, k < input.length → marks.getD k false = false := by
    intro k hk
    cases hmk : marks.getD k false with
    | false => rfl
    | true =>
      have h1 := (hm k).1 hmk
      exact absurd (hcomma k hk h1.1) h1.2.2.2.2
  rw [hc, hins, insertNewlines_unmarked input marks hun]

/-- C11: on success the code is the input with newlines inserted after marked commas,
and a comma whose next character in the input is a newline is never marked; an input
in which every comma is followed by a newline and whose brackets balance (no premature
closing bracket, both depths zero at the end) is returned unchanged, as `a,\nb` is. -/
theorem commaFormat_no_duplicate_newline (cfg : Config) (input : Str) :
    (∀ out, commaFormat cfg input = some ⟨none, some out⟩ →
      ∃ marks : List Bool, marks.length = input.length ∧ out = insertNewlines input marks ∧
        (∀ k, marks.getD k false = true → input[k]? = some 44) ∧
        (∀ k, input[k + 1]? = some 10 → marks.getD k false = false)) ∧
    ((∀ k, k < input.length → input[k]? = some 44 → input[k + 1]? = some 10) →
      (∀ k, k < input.length → ¬ prematureCloseAt input k) →
      arrayDepthAt input input.length = 0 → parenDepthAt input input.length = 0 →
      commaFormat cfg input = some ⟨none, some input⟩) ∧
    commaFormat cfg (toUnits "a,\nb") = some ⟨none, some (toUnits "a,\nb")⟩ := by
  refine ⟨?_, commaFormat_unchanged cfg input, ?_⟩
  · intro out h
    obtain ⟨marks, hlen, hout, hm⟩ := commaFormat_marks cfg input out h
    refine ⟨marks, hlen, hout, fun k hk => ((hm k).1 hk).1, ?_⟩
    intro k hk
    cases hmk : marks.getD k false with
    | false => rfl
    | true => exact absurd hk ((hm k).1 hmk).2.2.2.2
  · exact commaFormat_unchanged cfg (toUnits "a,\nb") (by decide) (by decide) (by decide)
      (by decide)

theorem commaFormat_no_duplicate_newline_witness :
    commaFormat defaultConfig (toUnits "f(a,\n[b]),\nc") =
        some ⟨none, some (toUnits "f(a,\n[b]),\nc")⟩ ∧
      ∃ marks : List Bool, marks.length = (toUnits "a,\nb,c").length ∧
        toUnits "a,\nb,\nc" = insertNewlines (toUnits "a,\nb,c") marks ∧
        (∀ k, marks.getD k false = true → (toUnits "a,\nb,c")[k]? = some 44) ∧
        (∀ k, (toUnits "a,\nb,c")[k + 1]? = some 10 → marks.getD k false = false) :=
  ⟨(commaFormat_no_duplicate_newline defaultConfig (toUnits "f(a,\n[b]),\nc")).2.1
      (by decide) (by decide) (by decide) (by decide),
    (commaFormat_no_duplicate_newline defaultConfig (toUnits "a,\nb,c")).1
      (toUnits "a,\nb,\nc") (by decide)⟩

/-- C12: on success no newline is inserted after a comma met while the array depth is
positive, whatever the paren depth and the configuration; a comma met at array depth 0
that passes the rest of the test is marked, also after an array has closed:
`[a,b],c` becomes `[a,b],` newline `c`. -/
theorem commaFormat_array_suppression (cfg : Config) (input out : Str)
    (h : commaFormat cfg input = some ⟨none, some out⟩) :
    (∃ marks : List Bool, marks.length = input.length ∧ out = insertNewlines input marks ∧
      (∀ k, marks.getD k false = true → input[k]? = some 44) ∧
      (∀ k, 0 < arrayDepthAt input k → marks.getD k false = false) ∧
      (∀ k, input[k]? = some 44 → arrayDepthAt input k = 0 → inStringAt input k = none →
        (parenDepthAt input k < cfg.MaxParenLayersAllowed + 1 ∨ cfg.considerParens = false) →
        input[k + 1]? ≠ some 10 → marks.getD k false = true)) ∧
    commaFormat defaultConfig (toUnits "[a,b],c") = some ⟨none, some (toUnits "[a,b],\nc")⟩ := by
  refine ⟨?_, ?_⟩
  · obtain ⟨marks, hlen, hout, hm⟩ := commaFormat_marks cfg input out h
    refine ⟨marks, hlen, hout, fun k hk => ((hm k).1 hk).1, ?_, ?_⟩
    · intro k hk
      cases hmk : marks.getD k false with
      | false => rfl
      | true =>
        have := ((hm k).1 hmk).2.2.1
        omega
    · intro k hc ha hs hp hn
      exact (hm k).2 ⟨hc, hp, ha, hs, hn⟩
  · decide

theorem commaFormat_array_suppression_witness :
    ∃ marks : List Bool, marks.length = (toUnits "f([a,b],c),[d,(e,g)]").length ∧
      toUnits "f([a,b],c),\n[d,(e,g)]" = insertNewlines (toUnits "f([a,b],c),[d,(e,g)]") marks ∧
      (∀ k, marks.getD k false = true → (toUnits "f([a,b],c),[d,(e,g)]")[k]? = some 44) ∧
      (∀ k, 0 < arrayDepthAt (toUnits "f([a,b],c),[d,(e,g)]") k → marks.getD k false = false) ∧
      (∀ k, (toUnits "f([a,b],c),[d,(e,g)]")[k]? = some 44 →
        arrayDepthAt (toUnits "f([a,b],c),[d,(e,g)]") k = 0 →
        inStringAt (toUnits "f([a,b],c),[d,(e,g)]") k = none →
        (parenDepthAt (toUnits "f([a,b],c),[d,(e,g)]") k < defaultConfig.MaxParenLayersAllowed + 1 ∨
          defaultConfig.considerParens = false) →
        (toUnits "f([a,b],c),[d,(e,g)]")[k + 1]? ≠ some 10 → marks.getD k false = true) :=
  (commaFormat_array_suppression defaultConfig (toUnits "f([a,b],c),[d,(e,g)]")
    (toUnits "f([a,b],c),\n[d,(e,g)]") (by decide)).1

theorem eligible_considerParens_false (m1 m2 : Int) (t : Track) (next : Option Nat) :
    eligible ⟨false, m1⟩ t next = eligible ⟨false, m2⟩ t next := by
  simp [eligible]

theorem scanPass_considerParens_false (m1 m2 : Int) :
    ∀ (input : Str) (t : Track), scanPass ⟨false, m1⟩ t input = scanPass ⟨false, m2⟩ t input := by
  intro input
  induction input with
  | nil => intro t; rfl
  | cons c rest ih =>
    intro t
    rw [scanPass, scanPass, ih, emit, emit, eligible_considerParens_false m1 m2]

/-- C13: with `considerParens` false, on success every comma met outside a string, at
array depth 0 and not already followed by a newline is marked, whatever the paren depth,
and the result is the same for every value of `MaxParenLayersAllowed`; `f(a,b)` becomes
`f(a,` newline `b)`. -/
theorem commaFormat_ignores_parens (input out : Str) (maxLayers : Int)
    (h : commaFormat ⟨false, maxLayers⟩ input = some ⟨none, some out⟩) :
    (∃ marks : List Bool, marks.length = input.length ∧ out = insertNewlines input marks ∧
      (∀ k, marks.getD k false = true → input[k]? = some 44) ∧
      (∀ k, input[k]? = some 44 → inStringAt input k = none → arrayDepthAt input k = 0 →
        input[k + 1]? ≠ some 10 → marks.getD k false = true)) ∧
    (∀ m2 : Int, commaFormat ⟨false, m2⟩ input = some ⟨none, some out⟩) ∧
    (∀ m2 : Int, commaFormat ⟨false, m2⟩ (toUnits "f(a,b)") =
      some ⟨none, some (toUnits "f(a,\nb)")⟩) := by
  refine ⟨?_, ?_, ?_⟩
  · obtain ⟨marks, hlen, hout, hm⟩ := commaFormat_marks _ input out h
    refine ⟨marks, hlen, hout, fun k hk => ((hm k).1 hk).1, ?_⟩
    intro k hc hs ha hn
    exact (hm k).2 ⟨hc, Or.inr rfl, ha, hs, hn⟩
  · intro m2
    rw [commaFormat_eq_scanPass] at h ⊢
    rw [scanPass_considerParens_false m2 maxLayers, h]
  · intro m2
    rw [commaFormat_eq_scanPass, scanPass_considerParens_false m2 0]
    rfl

theorem commaFormat_ignores_parens_witness :
    commaFormat ⟨false, 7⟩ (toUnits "f(g(a,b),'c,d')") =
      some ⟨none, some (toUnits "f(g(a,\nb),\n'c,d')")⟩ :=
  (commaFormat_ignores_parens (toUnits "f(g(a,b),'c,d')") (toUnits "f(g(a,\nb),\n'c,d')") (-1)
    (by decide)).2.1 7

theorem scanPass_error_mem (cfg : Config) :
    ∀ (input : Str) (t : Track) (reason : Str), (scanPass cfg t input).error = some reason →
      reason = unbalancedArray ∨ reason = unbalancedParens := by
  intro input
  induction input with
  | nil =>
    intro t reason h
    simp only [scanPass, finish] at h
    split_ifs at h
    · left; simpa using h.symm
    · right; simpa using h.symm
  | cons c rest ih =>
    intro t reason h
    rw [scanPass] at h
    cases hab : abortReason t c with
    | some r =>
      rw [hab] at h
      simp only [Option.some.injEq] at h
      subst h
      simp only [abortReason] at hab
      split_ifs at hab
      · left; simpa using hab.symm
      · right; simpa using hab.symm
    | none =>
      rw [hab] at h
      exact ih _ _ h

/-- C14 (as stated it fails): for `a,(b,c` the reason is the text `Unbalanced
parenthesies` of the source, which is neither `unbalanced parenthesis` nor `unbalanced
array`. -/
theorem commaFormat_reason_counterexample :
    commaFormat defaultConfig (toUnits "a,(b,c") =
      some ⟨some (toUnits "Unbalanced parenthesies"), none⟩ ∧
    toUnits "Unbalanced parenthesies" ≠ toUnits "unbalanced parenthesis" ∧
    toUnits "Unbalanced parenthesies" ≠ toUnits "unbalanced array" := by
  decide

/-- C14 (amended): every error result of `commaFormat` carries as its reason exactly one
of the two texts `Unbalanced array` and `Unbalanced parenthesies`, both occur, and for
`a,(b,c` the reason is `Unbalanced parenthesies`. -/
theorem commaFormat_reason_mem (cfg : Config) (input : Str) (r : FormatResult) (reason : Str)
    (h : commaFormat cfg input = some r) (he : r.error = some reason) :
    (reason = toUnits "Unbalanced array" ∨ reason = toUnits "Unbalanced parenthesies") ∧
    toUnits "Unbalanced array" ≠ toUnits "Unbalanced parenthesies" ∧
    commaFormat cfg (toUnits "[") = some ⟨some (toUnits "Unbalanced array"), none⟩ ∧
    commaFormat cfg (toUnits "a,(b,c") = some ⟨some (toUnits "Unbalanced parenthesies"), none⟩ := by
  refine ⟨?_, by decide, ?_, ?_⟩
  · rw [commaFormat_eq_scanPass, Option.some.injEq] at h
    subst h
    exact scanPass_error_mem cfg input Track.init reason he
  · rw [commaFormat_eq_scanPass]; rfl
  · rw [commaFormat_eq_scanPass]; rfl

theorem commaFormat_reason_mem_witness :
    (toUnits "Unbalanced array" = toUnits "Unbalanced array" ∨
      toUnits "Unbalanced array" = toUnits "Unbalanced parenthesies") ∧
    toUnits "Unbalanced array" ≠ toUnits "Unbalanced parenthesies" ∧
    commaFormat defaultConfig (toUnits "[") = some ⟨some (toUnits "Unbalanced array"), none⟩ ∧
    commaFormat defaultConfig (toUnits "a,(b,c") =
      some ⟨some (toUnits "Unbalanced parenthesies"), none⟩ :=
  commaFormat_reason_mem defaultConfig (toUnits "f(x)]") ⟨some (toUnits "Unbalanced array"), none⟩
    (toUnits "Unbalanced array") (by decide) rfl

/-- C15 (the code departs from the claim): the four characters `a, b` stay four
characters after the padding, but the collapse of the comma and the space leaves the
three characters `a,b`, and the loop packs `floor(3 / 2) = 1` pair: the payload is the
single code unit of `a,` and the `b` is dropped. -/
theorem minibakeCode_drops_last_unit :
    (padEven (toUnits "a, b")).length = 4 ∧
    collapseCommaSpace (padEven (toUnits "a, b")) = toUnits "a,b" ∧
    packPairs (collapseCommaSpace (padEven (toUnits "a, b"))) = [24876] ∧
    (packPairs (collapseCommaSpace (padEven (toUnits "a, b")))).length ≠
      (padEven (toUnits "a, b")).length / 2 ∧
    minibakeCode (toUnits "a, b") = wrapperHead ++ [24876] ++ wrapperTail ∧
    unminibakeCode (minibakeCode (toUnits "a, b")) = toUnits "a," := by
  decide

theorem newlinesAfterCommas_length {xs ys : Str} (h : NewlinesAfterCommas xs ys) :
    ys.length ≤ xs.length + xs.count 44 := by
  induction h with
  | nil => simp
  | keep c _ ih =>
    simp only [List.length_cons, List.count_cons]
    omega
  | insert _ ih =>
    simp only [List.length_cons, List.count_cons_self]
    omega

theorem commaFormatBody_newline (cfg : Config) (st : ScanState)
    (h : st.output[st.i]? = some 10) : commaFormatBody cfg st = .ok st := by
  unfold commaFormatBody
  rw [h]
  simp

/-- C16: `commaFormat` terminates on every input: with any fuel of at least
`2 * length + 1` tests of the loop condition, the index loop over the growing output
returns what the single pass over the input returns, a pass that takes the characters of
the input one by one from left to right; the body of the loop leaves every variable as
it is at a newline; and on success the output is at most as long as the input plus the
number of its commas. -/
theorem commaFormat_terminates (cfg : Config) (input : Str) :
    (∀ fuel, 2 * input.length + 1 ≤ fuel →
      commaFormatLoop cfg fuel ⟨input, 0, 0, none, 0⟩ =
        some (scanPass cfg Track.init input)) ∧
    commaFormat cfg input = some (scanPass cfg Track.init input) ∧
    (∀ st : ScanState, st.output[st.i]? = some 10 → commaFormatBody cfg st = .ok st) ∧
    (∀ out, commaFormat cfg input = some ⟨none, some out⟩ →
      out.length ≤ input.length + input.count 44) := by
  refine ⟨?_, commaFormat_eq_scanPass cfg input, commaFormatBody_newline cfg, ?_⟩
  · intro fuel hf
    have h := commaFormatLoop_eq cfg input [] Track.init fuel hf (by simp [Track.init])
    have hp : prependCode [] (scanPass cfg Track.init input) = scanPass cfg Track.init input := by
      cases hr : scanPass cfg Track.init input with
      | mk e c => cases c <;> simp [prependCode]
    rw [hp] at h
    simpa [Track.init] using h
  · intro out h
    rw [commaFormat_eq_scanPass, Option.some.injEq] at h
    exact newlinesAfterCommas_length (scanPass_newlinesAfterCommas cfg input Track.init out h)

theorem commaFormat_terminates_witness :
    commaFormatLoop defaultConfig 100 ⟨toUnits "a,b,(c,d)", 0, 0, none, 0⟩ =
        some (scanPass defaultConfig Track.init (toUnits "a,b,(c,d)")) ∧
    commaFormatBody defaultConfig ⟨toUnits "a,\nb", 2, 0, none, 0⟩ =
        .ok ⟨toUnits "a,\nb", 2, 0, none, 0⟩ ∧
    (toUnits "a,\nb,\n(c,d)").length ≤
      (toUnits "a,b,(c,d)").length + (toUnits "a,b,(c,d)").count 44 :=
  ⟨(commaFormat_terminates defaultConfig (toUnits "a,b,(c,d)")).1 100 (by decide),
    (commaFormat_terminates defaultConfig []).2.2.1 ⟨toUnits "a,\nb", 2, 0, none, 0⟩
      (by decide),
    (commaFormat_terminates defaultConfig (toUnits "a,b,(c,d)")).2.2.2
      (toUnits "a,\nb,\n(c,d)") (by decide)⟩


theorem packPairs_has_wide_unit (n : Str) (h : Packable n) (hne : n ≠ []) :
    ∃ u ∈ packPairs n, 256 ≤ u := by
  rcases n with _ | ⟨a, _ | ⟨b, rest⟩⟩
  · exact absurd rfl hne
  · exact absurd h (by simp [Packable])
  · obtain ⟨⟨ha1, ha, hb, _⟩, _⟩ := h
    refine ⟨packUnit a b, by rw [packPairs_cons_cons]; simp, ?_⟩
    rw [packUnit_bytes a b ha hb]
    omega

theorem wrapper_ne_self (n : Str) (h : Packable n) (hbyte : ∀ c ∈ n, c < 256) :
    n ≠ wrapperHead ++ packPairs n ++ wrapperTail := by
  intro heq
  by_cases hne : n = []
  · rw [hne] at heq
    revert heq
    decide
  · obtain ⟨u, hu, hwide⟩ := packPairs_has_wide_unit n h hne
    have hmem : u ∈ n := by
      rw [heq]
      simp [hu]
    have := hbyte u hmem
    omega

/-- C17: for every text `x` whose normalized form `n` has even length, holds only code
units below 256, none of them zero at an even index, and has no pair `(n[2i], n[2i+1])`
that is a space followed by `(` or `)`, `unminibakeCode(minibakeCode(x))` is `n` and
differs from `minibakeCode(x)`; this is the test by which `bake` of `index.mjs` accepts
the packed text, so `bake` sets the editor to it when `x` itself is not taken to be
packed already. -/
theorem roundtrip_exact (x : Str) (heven : (normalize x).length % 2 = 0)
    (hbyte : ∀ c ∈ normalize x, c < 256) (hnul : NoNulAtEven (normalize x))
    (hpair : NoTerminatorPair (normalize x)) :
    unminibakeCode (minibakeCode x) = normalize x ∧
    unminibakeCode (minibakeCode x) ≠ minibakeCode x ∧
    (unminibakeCode x = x → bake x = BakeEffect.setValue (minibakeCode x)) := by
  have hp : Packable (normalize x) := packable_of_index _ heven hbyte hnul hpair
  have h1 : unminibakeCode (minibakeCode x) = normalize x := by
    rw [minibakeCode_eq, unminibakeCode_packPairs _ hp]
  have h2 : unminibakeCode (minibakeCode x) ≠ minibakeCode x := by
    rw [h1, minibakeCode_eq]
    exact wrapper_ne_self _ hp hbyte
  refine ⟨h1, h2, ?_⟩
  intro hx
  unfold bake
  rw [if_neg (not_not.2 hx)]
  simp only []
  rw [if_pos h2]

theorem roundtrip_exact_witness :
    unminibakeCode (minibakeCode (toUnits "t>>4, t*3, 1")) = toUnits "t>>4,t*3,1" ∧
    unminibakeCode (minibakeCode (toUnits "t>>4, t*3, 1")) ≠
      minibakeCode (toUnits "t>>4, t*3, 1") ∧
    bake (toUnits "t>>4, t*3, 1") = BakeEffect.setValue (minibakeCode (toUnits "t>>4, t*3, 1")) :=
  have h := roundtrip_exact (toUnits "t>>4, t*3, 1") (by decide) (by decide) (by decide)
    (by decide)
  ⟨h.1, h.2.1, h.2.2 (by decide)⟩

theorem scanPass_head (cfg : Config) (input : Str) (t : Track) (out : Str)
    (h : scanPass cfg t input = ⟨none, some out⟩) : out.head? = input.head? := by
  cases input with
  | nil =>
    simp only [scanPass, finish] at h
    split_ifs at h
    · simp at h
    · simp at h
    · simp only [FormatResult.mk.injEq, Option.some.injEq, true_and] at h
      rw [← h]
  | cons c rest =>
    obtain ⟨_, out2, _, rfl⟩ := scanPass_cons_ok h
    unfold emit
    split_ifs <;> simp

theorem trackStep_comma_newline (t : Track) : trackStep (trackStep t 44) 10 = trackStep t 44 := by
  simp [trackStep]

theorem scanPass_idempotent (cfg : Config) :
    ∀ (input : Str) (t : Track) (out : Str), scanPass cfg t input = ⟨none, some out⟩ →
      scanPass cfg t out = ⟨none, some out⟩ := by
  intro input
  induction input with
  | nil =>
    intro t out h
    have h2 := h
    simp only [scanPass, finish] at h2
    split_ifs at h2
    · simp at h2
    · simp at h2
    · simp only [FormatResult.mk.injEq, Option.some.injEq, true_and] at h2
      rw [← h2]
      rw [← h2] at h
      exact h
  | cons c rest ih =>
    intro t out h
    obtain ⟨hab, out2, h2, rfl⟩ := scanPass_cons_ok h
    have hih := ih _ _ h2
    have hhead := scanPass_head cfg rest _ out2 h2
    by_cases hem : c = 44 ∧ eligible cfg t rest.head? = true
    · obtain ⟨rfl, he⟩ := hem
      have hemit : emit cfg t 44 rest = [44, 10] := by simp [emit, he]
      have he1 : emit cfg t 44 (10 :: out2) = [44] := by simp [emit, eligible]
      have he2 : emit cfg (trackStep t 44) 10 out2 = [10] := by simp [emit]
      rw [hemit]
      simp only [List.cons_append, List.nil_append]
      rw [scanPass, hab]
      simp only []
      rw [he1, scanPass, abortReason_newline]
      simp only []
      rw [he2, trackStep_comma_newline, hih]
      rfl
    · have hemit : emit cfg t c rest = [c] := by simp only [emit, if_neg hem]
      have he1 : emit cfg t c out2 = [c] := by
        simp only [emit, hhead, if_neg hem]
      rw [hemit]
      simp only [List.cons_append, List.nil_append]
      rw [scanPass, hab]
      simp only []
      rw [he1, hih]
      rfl

/-- C18: `commaFormat` is idempotent on its own output: for every text `t` and every
configuration, if `commaFormat(t)` succeeds with code `u`, then `commaFormat(u)`
succeeds with code `u`. -/
theorem commaFormat_idempotent (cfg : Config) (t u : Str)
    (h : commaFormat cfg t = some ⟨none, some u⟩) :
    commaFormat cfg u = some ⟨none, some u⟩ := by
  rw [commaFormat_eq_scanPass, Option.some.injEq] at h
  rw [commaFormat_eq_scanPass, scanPass_idempotent cfg t Track.init u h]

theorem commaFormat_idempotent_witness :
    commaFormat defaultConfig (toUnits "a,f(b,'c,d'),[e,g],\nh") =
        some ⟨none, some (toUnits "a,\nf(b,'c,d'),\n[e,g],\nh")⟩ ∧
    commaFormat defaultConfig (toUnits "a,\nf(b,'c,d'),\n[e,g],\nh") =
        some ⟨none, some (toUnits "a,\nf(b,'c,d'),\n[e,g],\nh")⟩ :=
  ⟨by decide, commaFormat_idempotent defaultConfig (toUnits "a,f(b,'c,d'),[e,g],\nh")
    (toUnits "a,\nf(b,'c,d'),\n[e,g],\nh") (by decide)⟩


end EnBeat
